import Mathlib

/-!
Verification of the semantic-diff core (entity model, matching engine,
parser plugins, diff orchestrator) against its specification.

Shallow embedding conventions:
* JS strings are Lean `String`; `split('\n')` is `String.splitOn "\n"`.
* JS `Map` (insertion-ordered, last value wins for a repeated key) is an
  association list built with `upsertA`; JS `Set<string>` is a `List String`
  used through membership only.
* JS numbers occurring as similarity scores are `ℚ` (the algorithm only
  compares them with `<` and `≥`).
* `contentHash` (a SHA-256 hex digest from node:crypto), `yaml.dump` and
  `JSON.stringify` are external library calls; the plugin embeddings take
  them as explicit function parameters and every theorem quantifies over
  them, so the results hold in particular for the real digest/serialisers.
-/

/-! ## Entity model (src/model/entity.ts, src/model/change.ts) -/

inductive ChangeType where
  | added | modified | deleted | moved | renamed
deriving DecidableEq, Repr

/-- SemanticChange record (src/model/change.ts). `timestamp` is declared in
the interface but never produced by the matcher, so it is omitted here. -/
structure SemanticChange where
  id : String
  entityId : String
  changeType : ChangeType
  entityType : String
  entityName : String
  filePath : String
  oldFilePath : Option String := none
  beforeContent : Option String := none
  afterContent : Option String := none
  commitSha : Option String := none
  author : Option String := none
deriving DecidableEq, Repr

/-- SemanticEntity record (src/model/entity.ts). `metadata` is the optional
string-to-string map, kept as an association list. -/
structure SemanticEntity where
  id : String
  filePath : String
  entityType : String
  name : String
  parentId : Option String := none
  content : String
  contentHash : String
  startLine : Nat
  endLine : Nat
  metadata : Option (List (String × String)) := none
deriving DecidableEq, Repr

/-- buildEntityId (src/model/entity.ts). -/
def buildEntityId (filePath entityType name : String) (parentId : Option String := none) : String :=
  match parentId with
  | some p => filePath ++ "::" ++ p ++ "::" ++ name
  | none => filePath ++ "::" ++ entityType ++ "::" ++ name

/-! ## Association-list model of the JS `Map` -/

/-- Lookup in an association list (JS `Map.get`). -/
def lookupA {α : Type} : List (String × α) → String → Option α
  | [], _ => none
  | p :: r, k => if p.1 = k then some p.2 else lookupA r k

/-- JS `Map.set`: replace the value at an existing key keeping its position,
otherwise append the new binding at the end. -/
def upsertA {α : Type} (m : List (String × α)) (k : String) (v : α) : List (String × α) :=
  if (lookupA m k).isSome then m.map (fun p => if p.1 = k then (k, v) else p)
  else m ++ [(k, v)]

/-- JS `Map.delete`. -/
def eraseA {α : Type} : List (String × α) → String → List (String × α)
  | [], _ => []
  | p :: r, k => if p.1 = k then eraseA r k else p :: eraseA r k

/-- JS `new Map(pairs)`: insert every pair in order. Keys end up in
first-occurrence order with the last value for each key. -/
def mapOfList {α : Type} (l : List (String × α)) : List (String × α) :=
  l.foldl (fun m p => upsertA m p.1 p.2) []

/-! ## Matching engine (src/model/identity.ts, `matchEntities`) -/

structure MatchResult where
  changes : List SemanticChange
deriving DecidableEq, Repr

/-- Change record emitted by phase 1 for a modified entity. -/
def modifiedChange (commitSha author : Option String) (id : String)
    (be ae : SemanticEntity) : SemanticChange :=
  { id := "change::" ++ id
    entityId := id
    changeType := .modified
    entityType := ae.entityType
    entityName := ae.name
    filePath := ae.filePath
    beforeContent := some be.content
    afterContent := some ae.content
    commitSha := commitSha
    author := author }

/-- Change record emitted by phases 2 and 3: `moved` when the file paths
differ (then `oldFilePath` is set), `renamed` otherwise. -/
def renameChange (commitSha author : Option String)
    (be ae : SemanticEntity) : SemanticChange :=
  { id := "change::" ++ ae.id
    entityId := ae.id
    changeType := if be.filePath ≠ ae.filePath then .moved else .renamed
    entityType := ae.entityType
    entityName := ae.name
    filePath := ae.filePath
    oldFilePath := if be.filePath ≠ ae.filePath then some be.filePath else none
    beforeContent := some be.content
    afterContent := some ae.content
    commitSha := commitSha
    author := author }

def deletedChange (commitSha author : Option String) (e : SemanticEntity) : SemanticChange :=
  { id := "change::deleted::" ++ e.id
    entityId := e.id
    changeType := .deleted
    entityType := e.entityType
    entityName := e.name
    filePath := e.filePath
    beforeContent := some e.content
    commitSha := commitSha
    author := author }

def addedChange (commitSha author : Option String) (e : SemanticEntity) : SemanticChange :=
  { id := "change::added::" ++ e.id
    entityId := e.id
    changeType := .added
    entityType := e.entityType
    entityName := e.name
    filePath := e.filePath
    afterContent := some e.content
    commitSha := commitSha
    author := author }

/-- Phase 1: iterate the `afterById` map entries; an id also present in
`beforeById` is marked matched on both sides and yields a `modified` change
exactly when the content hashes differ. Returns
(changes, matchedBefore additions, matchedAfter additions). -/
def phase1 (beforeById : List (String × SemanticEntity)) (commitSha author : Option String) :
    List (String × SemanticEntity) → List SemanticChange × List String × List String
  | [] => ([], [], [])
  | (id, ae) :: rest =>
    match lookupA beforeById id with
    | some be =>
      let r := phase1 beforeById commitSha author rest
      ((if be.contentHash ≠ ae.contentHash then [modifiedChange commitSha author id be ae] else [])
         ++ r.1,
       id :: r.2.1, id :: r.2.2)
    | none => phase1 beforeById commitSha author rest

/-- Phase 2 index: the unmatched before entities grouped by `contentHash`
into per-hash FIFO queues, filled in list order. -/
def buildHashMap (l : List SemanticEntity) : List (String × List SemanticEntity) :=
  l.foldl
    (fun m e =>
      match lookupA m e.contentHash with
      | some q => upsertA m e.contentHash (q ++ [e])
      | none => upsertA m e.contentHash [e])
    []

/-- Phase 2: iterate the unmatched after entities; when the hash queue is
non-empty, pop its front entity and pair them. -/
def phase2 (commitSha author : Option String) :
    List SemanticEntity → List (String × List SemanticEntity) →
    List SemanticChange × List String × List String
  | [], _ => ([], [], [])
  | ae :: rest, byHash =>
    match lookupA byHash ae.contentHash with
    | some (be :: q) =>
      let byHash' :=
        if q.isEmpty then eraseA byHash ae.contentHash else upsertA byHash ae.contentHash q
      let r := phase2 commitSha author rest byHash'
      (renameChange commitSha author be ae :: r.1, be.id :: r.2.1, ae.id :: r.2.2)
    | _ => phase2 commitSha author rest byHash

/-- Phase 3 inner loop: single pass over the still-unmatched before entities
tracking the best (strictly improving) score that is at least the 0.8
threshold (0.8 = mkRat 4 5, written in the kernel-reducible normal form), skipping entities whose id is already matched and entities of a
different type. -/
def bestFold (simFn : SemanticEntity → SemanticEntity → ℚ) (ae : SemanticEntity)
    (matchedB : List String) :
    List SemanticEntity → Option SemanticEntity × ℚ → Option SemanticEntity × ℚ
  | [], acc => acc
  | be :: rest, (best, bestScore) =>
    if be.id ∈ matchedB then bestFold simFn ae matchedB rest (best, bestScore)
    else if be.entityType ≠ ae.entityType then bestFold simFn ae matchedB rest (best, bestScore)
    else
      let score := simFn be ae
      if bestScore < score ∧ mkRat 4 5 ≤ score then bestFold simFn ae matchedB rest (some be, score)
      else bestFold simFn ae matchedB rest (best, bestScore)

/-- Phase 3: for each still-unmatched after entity adopt the best-scoring
candidate, if any, and mark its id matched. -/
def phase3 (simFn : SemanticEntity → SemanticEntity → ℚ) (commitSha author : Option String)
    (stillB : List SemanticEntity) :
    List SemanticEntity → List String → List SemanticChange × List String × List String
  | [], _ => ([], [], [])
  | ae :: rest, matchedB =>
    match (bestFold simFn ae matchedB stillB (none, 0)).1 with
    | some be =>
      let r := phase3 simFn commitSha author stillB rest (be.id :: matchedB)
      (renameChange commitSha author be ae :: r.1, be.id :: r.2.1, ae.id :: r.2.2)
    | none => phase3 simFn commitSha author stillB rest matchedB

/-- matchEntities (src/model/identity.ts): the 3-phase matching algorithm,
followed by the terminal deleted/added sweep. -/
def matchEntities (before after : List SemanticEntity) (filePath : String)
    (similarityFn : Option (SemanticEntity → SemanticEntity → ℚ) := none)
    (commitSha : Option String := none) (author : Option String := none) : MatchResult :=
  let beforeById := mapOfList (before.map fun e => (e.id, e))
  let afterById := mapOfList (after.map fun e => (e.id, e))
  let p1 := phase1 beforeById commitSha author afterById
  let matchedB1 := p1.2.1
  let matchedA1 := p1.2.2
  let unmatchedBefore := before.filter (fun e => decide (e.id ∉ matchedB1))
  let unmatchedAfter := after.filter (fun e => decide (e.id ∉ matchedA1))
  let p2 := phase2 commitSha author unmatchedAfter (buildHashMap unmatchedBefore)
  let matchedB2 := matchedB1 ++ p2.2.1
  let matchedA2 := matchedA1 ++ p2.2.2
  let stillB := unmatchedBefore.filter (fun e => decide (e.id ∉ matchedB2))
  let stillA := unmatchedAfter.filter (fun e => decide (e.id ∉ matchedA2))
  let p3 :=
    match similarityFn with
    | some f =>
      if stillB.length > 0 ∧ stillA.length > 0 then phase3 f commitSha author stillB stillA matchedB2
      else ([], [], [])
    | none => ([], [], [])
  let matchedB3 := matchedB2 ++ p3.2.1
  let matchedA3 := matchedA2 ++ p3.2.2
  let deleted := (before.filter (fun e => decide (e.id ∉ matchedB3))).map (deletedChange commitSha author)
  let added := (after.filter (fun e => decide (e.id ∉ matchedA3))).map (addedChange commitSha author)
  ⟨p1.1 ++ p2.1 ++ p3.1 ++ deleted ++ added⟩

/-! ## Default similarity (src/model/identity.ts, `defaultSimilarity`) -/

/-- The characters matched by the JavaScript regex class `\s` (ASCII range). -/
def isJsSpace (c : Char) : Bool :=
  c = ' ' ∨ c = '\t' ∨ c = '\n' ∨ c = '\r' ∨ c = '\x0b' ∨ c = '\x0c'

mutual
/-- JS `String.prototype.split(/\s+/)`: state inside a token (accumulated
reversed in `cur`). -/
def splitWsTok : List Char → List Char → List String
  | [], cur => [String.mk cur.reverse]
  | c :: rest, cur =>
    if isJsSpace c then String.mk cur.reverse :: splitWsSkip rest
    else splitWsTok rest (c :: cur)

/-- JS `split(/\s+/)`: state inside a separator run. -/
def splitWsSkip : List Char → List String
  | [] => [""]
  | c :: rest => if isJsSpace c then splitWsSkip rest else splitWsTok rest [c]
end

def splitWs (s : String) : List String := splitWsTok s.data []

/-- JS `Set` built from a list: first occurrences, in order. -/
def dedup : List String → List String
  | [] => []
  | x :: r => x :: (dedup r).filter (fun y => decide (y ≠ x))

/-- defaultSimilarity (src/model/identity.ts): Jaccard index on the sets of
whitespace-split tokens of the two contents. -/
def defaultSimilarity (a b : SemanticEntity) : ℚ :=
  let tokensA := dedup (splitWs a.content)
  let tokensB := dedup (splitWs b.content)
  let inter := tokensA.filter (fun t => decide (t ∈ tokensB))
  let union := dedup (tokensA ++ tokensB)
  if union.length = 0 then 0 else (inter.length : ℚ) / (union.length : ℚ)

/-! ## String helpers shared by the plugins -/

/-- JS `trimStart` (ASCII whitespace model). -/
def jsTrimStart (s : String) : String := String.mk (s.data.dropWhile (fun c => isJsSpace c))

/-- JS `trimEnd` (ASCII whitespace model). -/
def jsTrimEnd (s : String) : String :=
  String.mk ((s.data.reverse.dropWhile (fun c => isJsSpace c)).reverse)

/-- JS `trim` (ASCII whitespace model). -/
def jsTrim (s : String) : String := jsTrimStart (jsTrimEnd s)

/-- JS `split('\n')`, written by direct recursion on the character list so
that it evaluates inside the kernel (it agrees with `String.splitOn "\n"`). -/
def splitLinesGo : List Char → List String
  | [] => [""]
  | c :: r =>
    match splitLinesGo r with
    | [] => [""]
    | t :: ts => if c = '\n' then "" :: t :: ts else String.mk (c :: t.data) :: ts

def splitLines (s : String) : List String := splitLinesGo s.data

/-- JS `startsWith`, on the character lists. -/
def jsStartsWith (s pre : String) : Bool := pre.data.isPrefixOf s.data

/-- JS `endsWith`, on the character lists. -/
def jsEndsWith (s suf : String) : Bool := suf.data.reverse.isPrefixOf s.data.reverse

/-! ## Parsed-value model shared by the JSON, YAML and TOML plugins

`JSON.parse`, `js-yaml.load` and `smol-toml.parse` return trees of JS
values. They are modeled by one inductive: `prim render` is any
non-object value (string, number, boolean, null, date, ...) carrying its
`String(value)` rendering — `typeof` on these is never `'object'` except
for `null`, which every walk routes into the primitive branch through its
explicit `value !== null` check, so `prim "null"` models it faithfully. -/

inductive Jval where
  | prim (render : String)
  | arr (elems : List Jval)
  | obj (fields : List (String × Jval))
deriving Repr

/-- JS `typeof value === 'object' && value !== null`. -/
def Jval.isObjLike : Jval → Bool
  | .prim _ => false
  | .arr _ => true
  | .obj _ => true

/-- `String(value)` for a non-object value (the only place the walks apply
`String(·)`). For object-likes the serialiser parameters are used instead. -/
def Jval.render : Jval → String
  | .prim r => r
  | .arr _ => ""
  | .obj _ => ""

/-- JS `Object.entries`: object fields, or array elements keyed by index. -/
def jsEntries : Jval → List (String × Jval)
  | .prim _ => []
  | .arr elems => elems.enum.map (fun p => (toString p.1, p.2))
  | .obj fields => fields

/-! ## JSON plugin (src/parser/plugins/json/index.ts) -/

/-- RFC-6901 key escaping as in the source:
`key.replace(/~/g, '~0').replace(/\//g, '~1')`. The two global
single-character replacements (`~` first, then `/` — the second pass never
touches the `~0` sequences the first introduces) amount to this one
character-wise expansion. -/
def escapePointerKey (k : String) : String :=
  String.mk (k.data.flatMap (fun c =>
    if c = '~' then ['~', '0'] else if c = '/' then ['~', '1'] else [c]))

/-- One level of `JsonParserPlugin.walk`: `st` models
`JSON.stringify(value, null, 2)`; `hash` models `contentHash`; `rec` is the
recursive call, cut off by the caller when `depth < 3` fails. Array elements
yield `element` entities only when object-like; object keys always yield an
entity (`object` or `property`). -/
def jsonWalkStep (hash : String → String) (st : Jval → String) (v : Jval)
    (pointer filePath : String) (rec : Jval → String → List SemanticEntity) :
    List SemanticEntity :=
  match v with
  | .prim _ => []
  | .arr elems =>
    elems.enum.flatMap (fun p =>
      let i := p.1
      let el := p.2
      let itemPointer := pointer ++ "/" ++ toString i
      let itemContent := st el
      if el.isObjLike then
        { id := buildEntityId filePath "element" itemPointer
          filePath := filePath
          entityType := "element"
          name := "[" ++ toString i ++ "]"
          parentId := if pointer = "" then none else some pointer
          content := itemContent
          contentHash := hash itemContent
          startLine := 0
          endLine := 0 } :: rec el itemPointer
      else [])
  | .obj fields =>
    fields.flatMap (fun p =>
      let k := p.1
      let val := p.2
      let propPointer := pointer ++ "/" ++ escapePointerKey k
      let propContent := st val
      let entityType := if val.isObjLike then "object" else "property"
      { id := buildEntityId filePath entityType propPointer
        filePath := filePath
        entityType := entityType
        name := k
        parentId := if pointer = "" then none else some pointer
        content := propContent
        contentHash := hash propContent
        startLine := 0
        endLine := 0 } :: (if val.isObjLike then rec val propPointer else []))

/-- `JsonParserPlugin.walk` with `fuel = 3 - depth`: the source recurses only
while `depth < 3`, so the recursion depth is bounded by 3 and the walk is
total by recursion on the fuel. -/
def jsonWalk (hash : String → String) (st : Jval → String) :
    Nat → Jval → String → String → List SemanticEntity
  | 0, v, pointer, filePath => jsonWalkStep hash st v pointer filePath (fun _ _ => [])
  | f + 1, v, pointer, filePath =>
    jsonWalkStep hash st v pointer filePath (fun el p => jsonWalk hash st f el p filePath)

/-- `JsonParserPlugin.extractEntities` on an already-parsed document
(`parsed` models the result of a successful `JSON.parse(content)`; a parse
failure throws and is handled by the orchestrator, not here). -/
def jsonExtractEntities (hash : String → String) (st : Jval → String)
    (parsed : Jval) (filePath : String) : List SemanticEntity :=
  jsonWalk hash st 3 parsed "" filePath

/-! ## YAML plugin (src/parser/plugin.ts, `YamlParserPlugin`) -/

/-- Line heuristic of the YAML plugin: 1-based index of the first line whose
`trimStart()` starts with `key ++ ":"`, else 0. -/
def findKeyLineYaml (content key : String) : Nat :=
  let rec go : List String → Nat → Nat
    | [], _ => 0
    | l :: rest, i => if jsStartsWith (jsTrimStart l) (key ++ ":") then i + 1 else go rest (i + 1)
  go (splitLines content) 0

/-- One level of `YamlParserPlugin.walk` over the `Object.entries` of the
current node. `dump` models `yaml.dump`; recursion (`rec`) descends only
into plain objects (not arrays) and is cut off by the caller when
`depth < 4` fails. -/
def yamlWalkStep (hash : String → String) (dump : Jval → String)
    (entries : List (String × Jval)) (path filePath fullContent : String)
    (rec : List (String × Jval) → String → List SemanticEntity) : List SemanticEntity :=
  entries.flatMap (fun p =>
    let k := p.1
    let v := p.2
    let dotPath := if path = "" then k else path ++ "." ++ k
    let valueStr := if v.isObjLike then jsTrim (dump v) else v.render
    let entityType := if v.isObjLike then "section" else "property"
    let lineMatch := findKeyLineYaml fullContent k
    { id := buildEntityId filePath entityType dotPath
      filePath := filePath
      entityType := entityType
      name := dotPath
      parentId := if path = "" then none else some path
      content := valueStr
      contentHash := hash valueStr
      startLine := lineMatch
      endLine := lineMatch } ::
      (match v with
       | .obj fields => rec fields dotPath
       | _ => []))

/-- `YamlParserPlugin.walk` with `fuel = 4 - depth` (source recurses while
`depth < 4`). -/
def yamlWalk (hash : String → String) (dump : Jval → String) :
    Nat → List (String × Jval) → String → String → String → List SemanticEntity
  | 0, entries, path, filePath, full =>
    yamlWalkStep hash dump entries path filePath full (fun _ _ => [])
  | f + 1, entries, path, filePath, full =>
    yamlWalkStep hash dump entries path filePath full
      (fun fields p => yamlWalk hash dump f fields p filePath full)

/-- `YamlParserPlugin.extractEntities`: `parsed` models `yaml.load content`
(`none` when the load result is not a non-null object — e.g. the empty
string loads to `undefined`). Top-level arrays walk their index-keyed
entries, exactly as `Object.entries` does in the source. -/
def yamlExtractEntities (hash : String → String) (dump : Jval → String)
    (parsed : Option Jval) (content filePath : String) : List SemanticEntity :=
  match parsed with
  | none => []
  | some v => if v.isObjLike then yamlWalk hash dump 4 (jsEntries v) "" filePath content else []

/-! ## TOML plugin (src/parser/plugins/toml/index.ts) -/

/-- Line heuristic of the TOML plugin: matches `<key> =`, `<key>=` or a line
that trim-starts to exactly `[<key>]`. -/
def findKeyLineToml (content key : String) : Nat :=
  let rec go : List String → Nat → Nat
    | [], _ => 0
    | l :: rest, i =>
      let trimmed := jsTrimStart l
      if jsStartsWith trimmed (key ++ " =") ∨ jsStartsWith trimmed (key ++ "=")
          ∨ trimmed = "[" ++ key ++ "]" then i + 1
      else go rest (i + 1)
  go (splitLines content) 0

/-- One level of `TomlParserPlugin.walk`: like YAML but arrays are
`property` (not `section`) and object-like contents use
`JSON.stringify(value, null, 2)` (`st`) without trimming. -/
def tomlWalkStep (hash : String → String) (st : Jval → String)
    (entries : List (String × Jval)) (path filePath fullContent : String)
    (rec : List (String × Jval) → String → List SemanticEntity) : List SemanticEntity :=
  entries.flatMap (fun p =>
    let k := p.1
    let v := p.2
    let dotPath := if path = "" then k else path ++ "." ++ k
    let valueStr := if v.isObjLike then st v else v.render
    let entityType := match v with
      | .obj _ => "section"
      | _ => "property"
    let lineMatch := findKeyLineToml fullContent k
    { id := buildEntityId filePath entityType dotPath
      filePath := filePath
      entityType := entityType
      name := dotPath
      parentId := if path = "" then none else some path
      content := valueStr
      contentHash := hash valueStr
      startLine := lineMatch
      endLine := lineMatch } ::
      (match v with
       | .obj fields => rec fields dotPath
       | _ => []))

/-- `TomlParserPlugin.walk` with `fuel = 4 - depth`. -/
def tomlWalk (hash : String → String) (st : Jval → String) :
    Nat → List (String × Jval) → String → String → String → List SemanticEntity
  | 0, entries, path, filePath, full =>
    tomlWalkStep hash st entries path filePath full (fun _ _ => [])
  | f + 1, entries, path, filePath, full =>
    tomlWalkStep hash st entries path filePath full
      (fun fields p => tomlWalk hash st f fields p filePath full)

/-- `TomlParserPlugin.extractEntities`: `parsed` models the table returned
by a successful `TOML.parse content` (the empty string parses to the empty
table). -/
def tomlExtractEntities (hash : String → String) (st : Jval → String)
    (parsed : List (String × Jval)) (content filePath : String) : List SemanticEntity :=
  tomlWalk hash st 4 parsed "" filePath content

/-! ## CSV plugin (src/parser/plugins/csv/index.ts) -/

/-- `parseCsvLine`: the character loop with its quote state; `cur` holds the
current cell reversed. `""` inside a quoted field is a literal quote; every
finished cell is trimmed on push. -/
def parseCsvAux (sep : Char) : List Char → Bool → List Char → List String
  | [], _, cur => [jsTrim (String.mk cur.reverse)]
  | '"' :: '"' :: rest, true, cur => parseCsvAux sep rest true ('"' :: cur)
  | '"' :: rest, true, cur => parseCsvAux sep rest false cur
  | c :: rest, true, cur => parseCsvAux sep rest true (c :: cur)
  | '"' :: rest, false, cur => parseCsvAux sep rest true cur
  | c :: rest, false, cur =>
    if c = sep then jsTrim (String.mk cur.reverse) :: parseCsvAux sep rest false []
    else parseCsvAux sep rest false (c :: cur)

def parseCsvLine (line : String) (sep : Char) : List String :=
  parseCsvAux sep line.data false []

/-- `CsvParserPlugin.extractEntities`: blank lines are dropped, the first
remaining line is the header, and every following line becomes a `row`
entity named by its first cell (or `row_<n>` when that cell is empty). -/
def csvExtractEntities (hash : String → String) (content filePath : String) :
    List SemanticEntity :=
  let lines := (splitLines content).filter (fun l => decide (jsTrim l ≠ ""))
  match lines with
  | [] => []
  | headerLine :: rows =>
    let sep : Char := if jsEndsWith filePath ".tsv" then '\t' else ','
    let headers := parseCsvLine headerLine sep
    rows.enum.map (fun p =>
      let i := p.1 + 1
      let rowContent := p.2
      let cells := parseCsvLine rowContent sep
      let rowId := if cells.headD "" = "" then "row_" ++ toString i else cells.headD ""
      let name := "row[" ++ rowId ++ "]"
      { id := buildEntityId filePath "row" name
        filePath := filePath
        entityType := "row"
        name := name
        content := rowContent
        contentHash := hash rowContent
        startLine := i + 1
        endLine := i + 1
        metadata := some (mapOfList (headers.enum.map (fun q => (q.2, cells.getD q.1 "")))) })

/-! ## Markdown plugin (MarkdownParserPlugin) -/

/-- A section being assembled by the Markdown scanner. -/
structure MdSection where
  level : Nat
  name : String
  startLine : Nat
  lines : List String
  parentId : Option String := none
deriving DecidableEq, Repr

/-- State of the Markdown line scanner: closed sections, the section being
assembled, and the heading nesting stack (top at the head). -/
structure MdState where
  sections : List MdSection
  current : Option MdSection
  stack : List MdSection
deriving Repr

/-- The ATX heading regex `/^(#{1,6})\s+(.+)/`: 1 to 6 leading `#`, at least
one whitespace character, then at least one further character; the captured
name is the remainder trimmed (which is what greedy `\s+`/`.+` capture plus
`.trim()` amount to). -/
def headingMatch (line : String) : Option (Nat × String) :=
  let n := (line.data.takeWhile (fun c => c = '#')).length
  if 1 ≤ n ∧ n ≤ 6 then
    match line.data.drop n with
    | c :: _ :: _ =>
      if isJsSpace c then some (n, jsTrim (String.mk (line.data.drop n))) else none
    | _ => none
  else none

/-- One line of the Markdown scanner (the body of the `for` loop over
lines): a heading closes the current section, pops the stack to the nearest
strictly-lower level to find its parent, and starts a new section; other
lines accrue to the current section, or open the level-0 preamble when
non-blank. -/
def mdStep (filePath : String) (st : MdState) (p : Nat × String) : MdState :=
  let i := p.1
  let line := p.2
  match headingMatch line with
  | some (level, name) =>
    let sections :=
      match st.current with
      | some cs => st.sections ++ [cs]
      | none => st.sections
    let stack := st.stack.dropWhile (fun s => decide (s.level ≥ level))
    let parentId :=
      match stack with
      | top :: _ => some (buildEntityId filePath "heading" top.name)
      | [] => none
    let cur : MdSection := { level := level, name := name, startLine := i + 1,
                             lines := [line], parentId := parentId }
    { sections := sections, current := some cur, stack := cur :: stack }
  | none =>
    match st.current with
    | some cs => { st with current := some { cs with lines := cs.lines ++ [line] } }
    | none =>
      if jsTrim line ≠ "" then
        { st with current := some { level := 0, name := "(preamble)", startLine := i + 1,
                                    lines := [line], parentId := none } }
      else st

/-- `MarkdownParserPlugin.extractEntities`: scan the lines, close the final
section, then emit one entity per section with non-empty trimmed content. -/
def markdownExtractEntities (hash : String → String) (content filePath : String) :
    List SemanticEntity :=
  let lines := splitLines content
  let st := lines.enum.foldl (mdStep filePath) ⟨[], none, []⟩
  let sections :=
    match st.current with
    | some cs => st.sections ++ [cs]
    | none => st.sections
  sections.filterMap (fun s =>
    let sectionContent := jsTrim (String.intercalate "\n" s.lines)
    if sectionContent = "" then none
    else
      let entityType := if s.level = 0 then "preamble" else "heading"
      some { id := buildEntityId filePath entityType s.name
             filePath := filePath
             entityType := entityType
             name := s.name
             parentId := s.parentId
             content := sectionContent
             contentHash := hash sectionContent
             startLine := s.startLine
             endLine := s.startLine + s.lines.length - 1 })

/-! ## Fallback plugin (FallbackParserPlugin) -/

/-- `FallbackParserPlugin.extractEntities` chunk loop: `i` is the 0-based
absolute index of the first remaining line, so the original
`Math.min(i + 20, lines.length)` is `min (i + 20) (i + remaining.length)`. -/
def fallbackChunks (hash : String → String) (filePath : String) :
    List String → Nat → List SemanticEntity
  | [], _ => []
  | x :: xs, i =>
    let chunk := (x :: xs).take 20
    let chunkContent := String.intercalate "\n" chunk
    let startLine := i + 1
    let endLine := min (i + 20) (i + (x :: xs).length)
    let name := "lines " ++ toString startLine ++ "-" ++ toString endLine
    { id := buildEntityId filePath "chunk" name
      filePath := filePath
      entityType := "chunk"
      name := name
      content := chunkContent
      contentHash := hash chunkContent
      startLine := startLine
      endLine := endLine } :: fallbackChunks hash filePath (xs.drop 19) (i + 20)
  termination_by l _ => l.length
  decreasing_by simp; omega

def fallbackExtractEntities (hash : String → String) (content filePath : String) :
    List SemanticEntity :=
  fallbackChunks hash filePath (splitLines content) 0

/-! ## Diff orchestrator (src/parser/differ.ts) -/

inductive FileStatus where
  | added | modified | deleted | renamed
deriving DecidableEq, Repr

/-- FileChange (src/git/types.ts). -/
structure FileChange where
  filePath : String
  status : FileStatus
  oldFilePath : Option String := none
  beforeContent : Option String := none
  afterContent : Option String := none

/-- A parser plugin as the orchestrator sees it: `extract` models
`extractEntities` and returns `Except` to model a thrown parse exception. -/
structure ParserPluginM where
  pluginId : String
  extract : String → String → Except String (List SemanticEntity)
  computeSimilarity : Option (SemanticEntity → SemanticEntity → ℚ) := none

/-- The registry as the orchestrator uses it: `getPlugin` models
`ParserRegistry.getPlugin` (extension lookup with fallback). -/
structure ParserRegistryM where
  getPlugin : String → Option ParserPluginM

structure DiffResult where
  changes : List SemanticChange
  fileCount : Nat
  addedCount : Nat
  modifiedCount : Nat
  deletedCount : Nat
  movedCount : Nat
  renamedCount : Nat
deriving Repr

/-- One side of a file: the guard `if (file.beforeContent)` is JS
truthiness, so `none` and the empty string both skip parsing, and a thrown
parse error (`Except.error`) yields the empty entity list. -/
def sideEntities (plugin : ParserPluginM) (content : Option String) (path : String) :
    List SemanticEntity :=
  match content with
  | some s =>
    if s ≠ "" then
      match plugin.extract s path with
      | .ok l => l
      | .error _ => []
    else []
  | none => []

/-- The per-file body of `computeSemanticDiff`'s loop; returns the updated
(allChanges, filesWithChanges) accumulator. -/
def diffFileStep (registry : ParserRegistryM) (commitSha author : Option String)
    (acc : List SemanticChange × List String) (file : FileChange) :
    List SemanticChange × List String :=
  match registry.getPlugin file.filePath with
  | none => acc
  | some plugin =>
    let beforeEntities := sideEntities plugin file.beforeContent (file.oldFilePath.getD file.filePath)
    let afterEntities := sideEntities plugin file.afterContent file.filePath
    let similarityFn := plugin.computeSimilarity.getD defaultSimilarity
    let result := matchEntities beforeEntities afterEntities file.filePath (some similarityFn)
        commitSha author
    if result.changes.length > 0 then
      (acc.1 ++ result.changes,
       if file.filePath ∈ acc.2 then acc.2 else acc.2 ++ [file.filePath])
    else acc

/-- computeSemanticDiff (src/parser/differ.ts). -/
def computeSemanticDiff (fileChanges : List FileChange) (registry : ParserRegistryM)
    (commitSha : Option String := none) (author : Option String := none) : DiffResult :=
  let r := fileChanges.foldl (diffFileStep registry commitSha author) ([], [])
  let count := fun (t : ChangeType) => (r.1.filter (fun c => decide (c.changeType = t))).length
  { changes := r.1
    fileCount := r.2.length
    addedCount := count .added
    modifiedCount := count .modified
    deletedCount := count .deleted
    movedCount := count .moved
    renamedCount := count .renamed }

/-! ## Specification-side reference definitions

The following definitions are written from the specification's (and the
claims') wording, to be compared with the source-derived functions above.
-/

/-- The spec's description of a phase-2/3 change record: `moved` when the
two entities' file paths differ and `renamed` otherwise, with `oldFilePath`
set exactly in the moved case. -/
def renameChangeSpec (commitSha author : Option String)
    (be ae : SemanticEntity) : SemanticChange :=
  if be.filePath ≠ ae.filePath then
    { id := "change::" ++ ae.id
      entityId := ae.id
      changeType := .moved
      entityType := ae.entityType
      entityName := ae.name
      filePath := ae.filePath
      oldFilePath := some be.filePath
      beforeContent := some be.content
      afterContent := some ae.content
      commitSha := commitSha
      author := author }
  else
    { id := "change::" ++ ae.id
      entityId := ae.id
      changeType := .renamed
      entityType := ae.entityType
      entityName := ae.name
      filePath := ae.filePath
      oldFilePath := none
      beforeContent := some be.content
      afterContent := some ae.content
      commitSha := commitSha
      author := author }

/-- Phase 2 as the spec/claim words it: iterate `after`; pair each entity
with the earliest remaining `before` entity bearing the same content hash,
consuming it. -/
def phase2Spec (commitSha author : Option String) :
    List SemanticEntity → List SemanticEntity →
    List SemanticChange × List String × List String
  | [], _ => ([], [], [])
  | ae :: rest, remaining =>
    match remaining.find? (fun be => decide (be.contentHash = ae.contentHash)) with
    | some be =>
      let r := phase2Spec commitSha author rest
        (remaining.eraseP (fun be => decide (be.contentHash = ae.contentHash)))
      (renameChangeSpec commitSha author be ae :: r.1, be.id :: r.2.1, ae.id :: r.2.2)
    | none => phase2Spec commitSha author rest remaining

/-- Phase 3 candidate selection as the (amended) claim words it: among the
before entities whose id is not yet matched and whose entityType agrees,
take the highest similarity score; adopt the earliest entity achieving it
iff that score is at least 0.80. -/
def phase3Pick (simFn : SemanticEntity → SemanticEntity → ℚ) (matchedIds : List String)
    (ae : SemanticEntity) (stillB : List SemanticEntity) : Option SemanticEntity :=
  let cand := stillB.filter (fun be => decide (be.id ∉ matchedIds ∧ be.entityType = ae.entityType))
  match (cand.map (fun be => simFn be ae)).max? with
  | none => none
  | some m => if mkRat 4 5 ≤ m then cand.find? (fun be => decide (simFn be ae = m)) else none

/-- Phase 3 as the (amended) claim words it, tracking matched before
entities by id. -/
def phase3Spec (simFn : SemanticEntity → SemanticEntity → ℚ) (commitSha author : Option String)
    (stillB : List SemanticEntity) :
    List SemanticEntity → List String → List SemanticChange × List String × List String
  | [], _ => ([], [], [])
  | ae :: rest, matched =>
    match phase3Pick simFn matched ae stillB with
    | some be =>
      let r := phase3Spec simFn commitSha author stillB rest (be.id :: matched)
      (renameChangeSpec commitSha author be ae :: r.1, be.id :: r.2.1, ae.id :: r.2.2)
    | none => phase3Spec simFn commitSha author stillB rest matched

/-- Phase 3 candidate selection exactly as claim C3 states it: only the
before entities already chosen for a pairing are out of consideration (the
remaining list holds the unchosen entities themselves). -/
def phase3PickClaim (simFn : SemanticEntity → SemanticEntity → ℚ)
    (remaining : List SemanticEntity) (ae : SemanticEntity) : Option SemanticEntity :=
  let cand := remaining.filter (fun be => decide (be.entityType = ae.entityType))
  match (cand.map (fun be => simFn be ae)).max? with
  | none => none
  | some m => if mkRat 4 5 ≤ m then cand.find? (fun be => decide (simFn be ae = m)) else none

/-- Phase 3 exactly as claim C3 states it: a chosen before entity (and only
it) is removed from consideration for later pairings. -/
def phase3Claim (simFn : SemanticEntity → SemanticEntity → ℚ) (commitSha author : Option String) :
    List SemanticEntity → List SemanticEntity →
    List SemanticChange × List String × List String
  | [], _ => ([], [], [])
  | ae :: rest, remaining =>
    match phase3PickClaim simFn remaining ae with
    | some be =>
      let r := phase3Claim simFn commitSha author rest (remaining.erase be)
      (renameChangeSpec commitSha author be ae :: r.1, be.id :: r.2.1, ae.id :: r.2.2)
    | none => phase3Claim simFn commitSha author rest remaining

/-- Canonical order-insensitive description of a `matchEntities` run
without a similarity function, valid when ids are unique per side and
content hashes are unique per side: phase 1 is an id-join, phase 2 pairs
each unmatched after entity with the unique unmatched before entity of
equal hash, and the leftovers are deleted/added. Split into named
components for congruence reasoning. -/
def mnLook (before : List SemanticEntity) : String → Option SemanticEntity :=
  fun k => lookupA (before.map fun e => (e.id, e)) k

def mnP1 (before after : List SemanticEntity) (c a : Option String) : List SemanticChange :=
  after.filterMap (fun ae =>
    match mnLook before ae.id with
    | some be =>
      if be.contentHash ≠ ae.contentHash then some (modifiedChange c a ae.id be ae) else none
    | none => none)

def mnM1 (before after : List SemanticEntity) : List String :=
  after.filterMap (fun ae => if (mnLook before ae.id).isSome then some ae.id else none)

def mnUB (before after : List SemanticEntity) : List SemanticEntity :=
  before.filter (fun e => decide (e.id ∉ mnM1 before after))

def mnUA (before after : List SemanticEntity) : List SemanticEntity :=
  after.filter (fun e => decide (e.id ∉ mnM1 before after))

def mnFind (before after : List SemanticEntity) (ae : SemanticEntity) : Option SemanticEntity :=
  (mnUB before after).find? (fun be => decide (be.contentHash = ae.contentHash))

def mnP2 (before after : List SemanticEntity) (c a : Option String) : List SemanticChange :=
  (mnUA before after).filterMap
    (fun ae => (mnFind before after ae).map (fun be => renameChange c a be ae))

def mnM2b (before after : List SemanticEntity) : List String :=
  (mnUA before after).filterMap (fun ae => (mnFind before after ae).map (fun be => be.id))

def mnM2a (before after : List SemanticEntity) : List String :=
  (mnUA before after).filterMap
    (fun ae => if (mnFind before after ae).isSome then some ae.id else none)

def mnDeleted (before after : List SemanticEntity) (c a : Option String) : List SemanticChange :=
  (before.filter (fun e =>
    decide (e.id ∉ mnM1 before after ++ mnM2b before after))).map (deletedChange c a)

def mnAdded (before after : List SemanticEntity) (c a : Option String) : List SemanticChange :=
  (after.filter (fun e =>
    decide (e.id ∉ mnM1 before after ++ mnM2a before after))).map (addedChange c a)

def matchNoneChanges (before after : List SemanticEntity) (c a : Option String) :
    List SemanticChange :=
  mnP1 before after c a ++ mnP2 before after c a
    ++ mnDeleted before after c a ++ mnAdded before after c a

/-- Alignment between the per-hash queue map and the list of remaining
unmatched before entities: each queue is exactly the remaining entities
with that hash, in order, and absent keys have no remaining entity. -/
def HashInv (m : List (String × List SemanticEntity)) (r : List SemanticEntity) : Prop :=
  ∀ h : String,
    lookupA m h =
      (if r.filter (fun b => decide (b.contentHash = h)) = [] then none
       else some (r.filter (fun b => decide (b.contentHash = h))))

/-! ## Concrete inputs used by witnesses and counterexamples -/

/-- Concrete stand-in for the hash parameter. -/
def hashC : String → String := fun s => s

/-- Concrete stand-in for the serialiser parameters. -/
def stC : Jval → String := fun _ => ""

/-- A similarity function that is constantly 1. -/
def sim1 : SemanticEntity → SemanticEntity → ℚ := fun _ _ => 1

/-- Entity builder for concrete test inputs. -/
def mkEnt (id fp ty nm hsh content : String) : SemanticEntity :=
  { id := id, filePath := fp, entityType := ty, name := nm,
    content := content, contentHash := hsh, startLine := 1, endLine := 1 }

/-- Two before entities sharing one id (as duplicate-id snapshots can
produce), plus two after entities, for the phase-3 id-removal scenario. -/
def ceB1 : SemanticEntity := mkEnt "f.ts::function::x" "f.ts" "function" "x" "hb1" "cb1"
def ceB2 : SemanticEntity := mkEnt "f.ts::function::x" "f.ts" "function" "x" "hb2" "cb2"
def ceA1 : SemanticEntity := mkEnt "f.ts::function::y" "f.ts" "function" "y" "ha1" "ca1"
def ceA2 : SemanticEntity := mkEnt "f.ts::function::z" "f.ts" "function" "z" "ha2" "ca2"

/-- Two before entities with equal content hash and one after entity with
that hash, for the phase-2 FIFO tie scenario. -/
def cpB1 : SemanticEntity := mkEnt "f.ts::function::p" "f.ts" "function" "p" "h" "c1"
def cpB2 : SemanticEntity := mkEnt "f.ts::function::q" "f.ts" "function" "q" "h" "c2"
def cpA : SemanticEntity := mkEnt "f.ts::function::r" "f.ts" "function" "r" "h" "c3"

/-- One before entity competed for by two after entities under a constant
similarity of 1, for the phase-3 order scenario. -/
def cfB : SemanticEntity := mkEnt "f.ts::function::b" "f.ts" "function" "b" "x0" "cb"
def cfA1 : SemanticEntity := mkEnt "f.ts::function::u" "f.ts" "function" "u" "x1" "cu"
def cfA2 : SemanticEntity := mkEnt "f.ts::function::v" "f.ts" "function" "v" "x2" "cv"

/-- Nested JSON document for the parent-reference scenario. -/
def docC5 : Jval := .obj [("a", .obj [("b", .prim "1")])]


/-- The nested property entity that `docC5` yields (content and hash are
computed with `stC` and `hashC`). -/
def c5e : SemanticEntity :=
  { id := "f.json::property::/a/b", filePath := "f.json", entityType := "property",
    name := "b", parentId := some "/a", content := "", contentHash := "",
    startLine := 0, endLine := 0 }

/-- JSON document with a key needing RFC-6901 escaping and an object-like
array element, for the name/pointer scenario. -/
def docC8 : Jval := .obj [("a~/b", .arr [.obj []])]

/-- The array-element entity that `docC8` yields (content and hash are
computed with `stC` and `hashC`). -/
def c8e : SemanticEntity :=
  { id := "f.json::element::/a~0~1b/0", filePath := "f.json", entityType := "element",
    name := "[0]", parentId := some "/a~0~1b", content := "", contentHash := "",
    startLine := 0, endLine := 0 }

/-- A plugin whose parse always throws, and a registry always returning it. -/
def p0 : ParserPluginM :=
  { pluginId := "boom", extract := fun _ _ => .error "boom", computeSimilarity := none }

def reg0 : ParserRegistryM := ⟨fun _ => some p0⟩

/-- A file both of whose sides fail to parse. -/
def f0 : FileChange :=
  { filePath := "x.json", status := .modified,
    beforeContent := some "oops", afterContent := some "oops" }

def f0n : FileChange := { f0 with beforeContent := none }

def f0a : FileChange := { f0 with afterContent := none }

/-! # Theorems

First the generic lemmas about the association-list model of the JS `Map`,
then the claim theorems.
-/

section MapLemmas

variable {α : Type}

theorem lookupA_eq_none {m : List (String × α)} {k : String} :
    lookupA m k = none ↔ k ∉ m.map Prod.fst := by
  induction m with
  | nil => simp [lookupA]
  | cons p r ih =>
    by_cases h : p.1 = k
    · simp [lookupA, h]
    · simp only [lookupA, h, if_neg, if_false, List.map_cons, List.mem_cons, not_or, ih]
      constructor
      · intro hh
        exact ⟨fun he => h he.symm, hh⟩
      · intro hh
        exact hh.2

theorem lookupA_isSome_iff {m : List (String × α)} {k : String} :
    (lookupA m k).isSome = true ↔ k ∈ m.map Prod.fst := by
  rw [Option.isSome_iff_ne_none, ne_eq, lookupA_eq_none, not_not]

theorem lookupA_mem {m : List (String × α)} {k : String} {v : α}
    (h : lookupA m k = some v) : (k, v) ∈ m := by
  induction m with
  | nil => simp [lookupA] at h
  | cons p r ih =>
    obtain ⟨a, b⟩ := p
    by_cases hp : a = k
    · subst hp
      simp only [lookupA, if_pos] at h
      injection h with hbv
      subst hbv
      exact List.mem_cons_self _ _
    · simp only [lookupA, hp, if_neg, if_false] at h
      exact List.mem_cons_of_mem _ (ih h)

theorem mem_lookupA {m : List (String × α)} (hnd : (m.map Prod.fst).Nodup)
    {p : String × α} (hp : p ∈ m) : lookupA m p.1 = some p.2 := by
  induction m with
  | nil => simp at hp
  | cons q r ih =>
    simp only [List.map_cons, List.nodup_cons] at hnd
    rcases List.mem_cons.1 hp with h | h
    · subst h; simp [lookupA]
    · have hne : q.1 ≠ p.1 := by
        intro he
        exact hnd.1 (he ▸ List.mem_map_of_mem Prod.fst h)
      simp [lookupA, hne, ih hnd.2 h]

theorem lookupA_append_of_none {m₁ m₂ : List (String × α)} {k : String}
    (h : lookupA m₁ k = none) : lookupA (m₁ ++ m₂) k = lookupA m₂ k := by
  induction m₁ with
  | nil => simp
  | cons p r ih =>
    by_cases hp : p.1 = k
    · simp [lookupA, hp] at h
    · simp only [lookupA, hp, if_neg, if_false] at h
      simp only [List.cons_append, lookupA, hp, if_neg, if_false]
      exact ih h

theorem lookupA_append_of_some {m₁ m₂ : List (String × α)} {k : String} {v : α}
    (h : lookupA m₁ k = some v) : lookupA (m₁ ++ m₂) k = some v := by
  induction m₁ with
  | nil => simp [lookupA] at h
  | cons p r ih =>
    by_cases hp : p.1 = k
    · simp only [lookupA, hp, if_pos] at h
      simp [List.cons_append, lookupA, hp, h]
    · simp only [lookupA, hp, if_neg, if_false] at h
      simp only [List.cons_append, lookupA, hp, if_neg, if_false]
      exact ih h

theorem lookupA_mapSubst_ne {m : List (String × α)} {k k' : String} {v : α} (h : ¬ k = k') :
    lookupA (m.map fun p => if p.1 = k then (k, v) else p) k' = lookupA m k' := by
  induction m with
  | nil => rfl
  | cons p r ih =>
    by_cases hp : p.1 = k
    · simp [lookupA, hp, h, ih]
    · simp [lookupA, hp, ih]

theorem lookupA_mapSubst_eq {m : List (String × α)} {k : String} {v : α}
    (h : (lookupA m k).isSome = true) :
    lookupA (m.map fun p => if p.1 = k then (k, v) else p) k = some v := by
  induction m with
  | nil => simp [lookupA] at h
  | cons p r ih =>
    by_cases hp : p.1 = k
    · simp [lookupA, hp]
    · have h' : (lookupA r k).isSome = true := by simpa [lookupA, hp] using h
      simp [lookupA, hp, ih h']

theorem lookupA_upsertA (m : List (String × α)) (k : String) (v : α) (k' : String) :
    lookupA (upsertA m k v) k' = if k = k' then some v else lookupA m k' := by
  unfold upsertA
  cases hs : (lookupA m k).isSome with
  | true =>
    rw [if_pos rfl]
    by_cases hk : k = k'
    · subst hk
      simp [lookupA_mapSubst_eq hs]
    · simp [lookupA_mapSubst_ne hk, hk]
  | false =>
    have hn : lookupA m k = none := by
      cases h : lookupA m k
      · rfl
      · simp [h] at hs
    rw [if_neg (by simp)]
    by_cases hk : k = k'
    · subst hk
      simp [lookupA_append_of_none hn, lookupA]
    · cases h : lookupA m k' with
      | some w => simp [lookupA_append_of_some h, h, hk]
      | none =>
        have : lookupA (m ++ [(k, v)]) k' = lookupA [(k, v)] k' := lookupA_append_of_none h
        simp [this, lookupA, hk, h]

theorem keys_upsertA (m : List (String × α)) (k : String) (v : α) :
    (upsertA m k v).map Prod.fst =
      if (lookupA m k).isSome then m.map Prod.fst else m.map Prod.fst ++ [k] := by
  unfold upsertA
  by_cases hs : (lookupA m k).isSome
  · simp only [hs, if_pos, List.map_map]
    refine List.map_congr_left ?_
    intro p _
    by_cases hp : p.1 = k <;> simp [hp]
  · simp [hs]

theorem mem_keys_upsertA {m : List (String × α)} {k k' : String} {v : α} :
    k' ∈ (upsertA m k v).map Prod.fst ↔ k' ∈ m.map Prod.fst ∨ k' = k := by
  rw [keys_upsertA]
  by_cases hs : (lookupA m k).isSome
  · simp only [hs, if_pos]
    constructor
    · exact Or.inl
    · rintro (h | h)
      · exact h
      · exact h ▸ lookupA_isSome_iff.1 hs
  · simp [hs]

theorem nodupKeys_upsertA {m : List (String × α)} {k : String} {v : α}
    (h : (m.map Prod.fst).Nodup) : ((upsertA m k v).map Prod.fst).Nodup := by
  rw [keys_upsertA]
  by_cases hs : (lookupA m k).isSome
  · simpa [hs] using h
  · have hk : k ∉ m.map Prod.fst := by
      rw [← lookupA_eq_none]
      cases hl : lookupA m k
      · rfl
      · simp [hl] at hs
    simp only [hs, if_neg, if_false]
    refine List.Nodup.append h (List.nodup_singleton _) ?_
    intro x hx hxk
    rw [List.mem_singleton] at hxk
    exact hk (hxk ▸ hx)

theorem nodupKeys_foldl_upsertA (l : List (String × α)) :
    ∀ m : List (String × α), (m.map Prod.fst).Nodup →
      ((l.foldl (fun m p => upsertA m p.1 p.2) m).map Prod.fst).Nodup := by
  induction l with
  | nil => intro m hm; simpa using hm
  | cons p r ih =>
    intro m hm
    exact ih _ (nodupKeys_upsertA hm)

theorem nodupKeys_mapOfList (l : List (String × α)) :
    ((mapOfList l).map Prod.fst).Nodup :=
  nodupKeys_foldl_upsertA l [] (by simp)

theorem mem_keys_foldl_upsertA (l : List (String × α)) {k : String} :
    ∀ m : List (String × α),
      (k ∈ (l.foldl (fun m p => upsertA m p.1 p.2) m).map Prod.fst ↔
        k ∈ m.map Prod.fst ∨ k ∈ l.map Prod.fst) := by
  induction l with
  | nil => intro m; simp
  | cons p r ih =>
    intro m
    rw [List.foldl_cons, ih, mem_keys_upsertA]
    simp
    tauto

theorem mem_keys_mapOfList {l : List (String × α)} {k : String} :
    k ∈ (mapOfList l).map Prod.fst ↔ k ∈ l.map Prod.fst := by
  rw [mapOfList, mem_keys_foldl_upsertA]
  simp

end MapLemmas

/-! ## Claim C1: diff of identical snapshots is empty -/

theorem phase1_self (m : List (String × SemanticEntity)) (c a : Option String) :
    ∀ es : List (String × SemanticEntity),
      (∀ p ∈ es, lookupA m p.1 = some p.2) →
      phase1 m c a es = ([], es.map Prod.fst, es.map Prod.fst) := by
  intro es
  induction es with
  | nil => intro _; rfl
  | cons p r ih =>
    intro h
    obtain ⟨id, ae⟩ := p
    have hl : lookupA m id = some ae := h _ (List.mem_cons_self _ _)
    simp only [phase1, hl, ih (fun q hq => h q (List.mem_cons_of_mem _ hq))]
    simp

/-- Claim C1: for every entity list `E` and every file path `p`,
`matchEntities(E, E, p)` returns the empty change list — diffing a snapshot
against an identical copy of itself emits no changes. -/
theorem matchEntities_self_empty (E : List SemanticEntity) (fp : String)
    (simFn : Option (SemanticEntity → SemanticEntity → ℚ)) (c a : Option String) :
    matchEntities E E fp simFn c a = ⟨[]⟩ := by
  have hnd := nodupKeys_mapOfList (E.map fun e => (e.id, e))
  have hm : ∀ p ∈ mapOfList (E.map fun e => (e.id, e)),
      lookupA (mapOfList (E.map fun e => (e.id, e))) p.1 = some p.2 :=
    fun p hp => mem_lookupA hnd hp
  have h1 := phase1_self (mapOfList (E.map fun e => (e.id, e))) c a _ hm
  have hmem : ∀ e ∈ E, e.id ∈ (mapOfList (E.map fun e => (e.id, e))).map Prod.fst := by
    intro e he
    rw [mem_keys_mapOfList]
    simp only [List.map_map]
    exact List.mem_map.2 ⟨e, he, rfl⟩
  have hfilter : ∀ L : List String,
      E.filter (fun e =>
        decide (e.id ∉ (mapOfList (E.map fun e => (e.id, e))).map Prod.fst ++ L)) = [] := by
    intro L
    refine List.filter_eq_nil_iff.2 ?_
    intro e he
    simp [hmem e he]
  have hfilter0 : E.filter (fun e =>
      decide (e.id ∉ (mapOfList (E.map fun e => (e.id, e))).map Prod.fst)) = [] := by
    refine List.filter_eq_nil_iff.2 ?_
    intro e he
    simp [hmem e he]
  simp only [matchEntities, h1, hfilter0]
  simp only [phase2, buildHashMap, List.foldl_nil]
  simp only [List.filter_nil, List.append_nil, hfilter0, List.length_nil]
  cases simFn with
  | none =>
    simp only [phase3, hfilter, List.map_nil]
    simp
  | some f =>
    simp only [phase3, hfilter, List.map_nil]
    simp

/-! ## Claim C10: omitted similarity function behaves as constantly 0 -/

theorem bestFold_const0 (ae : SemanticEntity) (mb : List String) :
    ∀ l : List SemanticEntity, bestFold (fun _ _ => 0) ae mb l (none, 0) = (none, 0) := by
  intro l
  induction l with
  | nil => rfl
  | cons be rest ih =>
    simp only [bestFold]
    split
    · exact ih
    · split
      · exact ih
      · simpa using ih

theorem phase3_const0 (c a : Option String) (stillB : List SemanticEntity) :
    ∀ (la : List SemanticEntity) (mb : List String),
      phase3 (fun _ _ => 0) c a stillB la mb = ([], [], []) := by
  intro la
  induction la with
  | nil => intro mb; rfl
  | cons ae rest ih =>
    intro mb
    simp only [phase3, bestFold_const0]
    exact ih mb

/-- Claim C10: calling `matchEntities` without a similarity function skips
phase 3 entirely — the result equals a run with the constantly-0 similarity
function; in particular a before/after pair with differing ids and content
hashes yields exactly one `deleted` plus one `added` change. -/
theorem matchEntities_no_simFn (fp : String) (c au : Option String) :
    (∀ before after : List SemanticEntity,
        matchEntities before after fp none c au
          = matchEntities before after fp (some (fun _ _ => 0)) c au) ∧
    (∀ b a' : SemanticEntity, b.id ≠ a'.id → b.contentHash ≠ a'.contentHash →
        (matchEntities [b] [a'] fp none c au).changes
          = [deletedChange c au b, addedChange c au a']) := by
  constructor
  · intro before after
    simp only [matchEntities, phase3_const0, ite_self]
  · intro b a' hid hh
    have hid' : ¬ (b.id = a'.id) := hid
    have hh' : ¬ (b.contentHash = a'.contentHash) := hh
    simp [matchEntities, phase1, phase2, mapOfList, upsertA, lookupA, buildHashMap,
      hid', hh']

/-- Witness for C10 at a concrete input. -/
theorem matchEntities_no_simFn_witness :
    (matchEntities [cfB] [cfA1] "f.ts" none none none).changes
      = [deletedChange none none cfB, addedChange none none cfA1] :=
  (matchEntities_no_simFn "f.ts" none none).2 cfB cfA1 (by decide) (by decide)

/-! ## Claim C2: phase 2 pairs each after entity with the earliest
remaining before entity of equal content hash -/

theorem find?_eq_head_filter {α : Type} (p : α → Bool) (l : List α) :
    l.find? p = (l.filter p).head? := by
  induction l with
  | nil => rfl
  | cons x r ih =>
    cases h : p x
    · simp only [List.find?_cons, List.filter_cons, h, Bool.false_eq_true, if_false]
      exact ih
    · simp only [List.find?_cons, List.filter_cons, h, if_true]
      rfl


theorem filter_eraseP_self {α : Type} (p : α → Bool) (l : List α) :
    (l.eraseP p).filter p = (l.filter p).tail := by
  induction l with
  | nil => rfl
  | cons x r ih =>
    by_cases h : p x <;> simp [List.eraseP_cons, List.filter, h, ih]

theorem filter_eraseP_disjoint {α : Type} {p q : α → Bool}
    (hdis : ∀ x, p x = true → q x = false) (l : List α) :
    (l.eraseP q).filter p = l.filter p := by
  induction l with
  | nil => rfl
  | cons x r ih =>
    by_cases h : q x
    · have hp : p x = false := by
        cases hpx : p x
        · rfl
        · rw [hdis x hpx] at h; exact absurd h (by simp)
      simp [List.eraseP_cons, h, List.filter, hp]
    · by_cases hp : p x <;> simp [List.eraseP_cons, h, List.filter, hp, ih]

theorem lookupA_eraseA {α : Type} (m : List (String × α)) (k k' : String) :
    lookupA (eraseA m k) k' = if k' = k then none else lookupA m k' := by
  induction m with
  | nil => simp [eraseA, lookupA]
  | cons p r ih =>
    by_cases hp : p.1 = k
    · have he : eraseA (p :: r) k = eraseA r k := by simp [eraseA, hp]
      rw [he, ih]
      by_cases hk : k' = k
      · rw [if_pos hk, if_pos hk]
      · rw [if_neg hk, if_neg hk]
        have hpk : ¬ p.1 = k' := fun hcon => hk (by rw [← hcon, hp])
        simp [lookupA, hpk]
    · have he : eraseA (p :: r) k = p :: eraseA r k := by simp [eraseA, hp]
      rw [he]
      by_cases hp' : p.1 = k'
      · have hk : ¬ k' = k := fun hcon => hp (by rw [hp', hcon])
        simp [lookupA, hp', hk]
      · simp [lookupA, hp', ih]

theorem hashInv_step {m : List (String × List SemanticEntity)} {r : List SemanticEntity}
    (hinv : HashInv m r) (e : SemanticEntity) :
    HashInv
      (match lookupA m e.contentHash with
       | some q => upsertA m e.contentHash (q ++ [e])
       | none => upsertA m e.contentHash [e])
      (r ++ [e]) := by
  intro h
  have hfa : (r ++ [e]).filter (fun b => decide (b.contentHash = h)) =
      r.filter (fun b => decide (b.contentHash = h)) ++
        (if e.contentHash = h then [e] else []) := by
    rw [List.filter_append]
    by_cases he : e.contentHash = h <;> simp [he]
  have hm := hinv e.contentHash
  by_cases he : e.contentHash = h
  · subst he
    by_cases hf : r.filter (fun b => decide (b.contentHash = e.contentHash)) = []
    · rw [hf, if_pos rfl] at hm
      simp only [hm]
      rw [lookupA_upsertA, if_pos rfl, hfa, hf]
      simp
    · rw [if_neg hf] at hm
      simp only [hm]
      rw [lookupA_upsertA, if_pos rfl, hfa]
      rw [if_neg (by simp [hf])]
      simp
  · have hne : ¬ e.contentHash = h := he
    have hlk : ∀ q, lookupA (upsertA m e.contentHash q) h = lookupA m h := by
      intro q
      rw [lookupA_upsertA, if_neg hne]
    rw [hfa, if_neg hne]
    simp only [List.append_nil]
    cases hc : lookupA m e.contentHash with
    | some q => simp only [hlk]; exact hinv h
    | none => simp only [hlk]; exact hinv h

theorem buildHashMap_inv (l : List SemanticEntity) : HashInv (buildHashMap l) l := by
  have main : ∀ (l' : List SemanticEntity) (m : List (String × List SemanticEntity))
      (r : List SemanticEntity), HashInv m r →
      HashInv (l'.foldl (fun m e =>
        match lookupA m e.contentHash with
        | some q => upsertA m e.contentHash (q ++ [e])
        | none => upsertA m e.contentHash [e]) m) (r ++ l') := by
    intro l'
    induction l' with
    | nil => intro m r h; simpa using h
    | cons e rest ih =>
      intro m r h
      have h' := hashInv_step h e
      have := ih _ (r ++ [e]) h'
      simpa using this
  have h0 : HashInv [] [] := by intro h; simp [lookupA]
  simpa [buildHashMap] using main l [] [] h0

theorem renameChangeSpec_eq (c a : Option String) (be ae : SemanticEntity) :
    renameChangeSpec c a be ae = renameChange c a be ae := by
  by_cases h : be.filePath ≠ ae.filePath <;> simp [renameChange, renameChangeSpec, h]

theorem phase2_eq_spec_aux (c a : Option String) :
    ∀ (ua : List SemanticEntity) (m : List (String × List SemanticEntity))
      (r : List SemanticEntity), HashInv m r → phase2 c a ua m = phase2Spec c a ua r := by
  intro ua
  induction ua with
  | nil => intro m r _; rfl
  | cons ae rest ih =>
    intro m r hinv
    have h := hinv ae.contentHash
    by_cases hf : r.filter (fun b => decide (b.contentHash = ae.contentHash)) = []
    · rw [hf, if_pos rfl] at h
      have hfind : r.find? (fun be => decide (be.contentHash = ae.contentHash)) = none := by
        rw [find?_eq_head_filter, hf]; rfl
      simp only [phase2, h, phase2Spec, hfind]
      exact ih m r hinv
    · rw [if_neg hf] at h
      obtain ⟨be, qs, hq⟩ : ∃ be qs,
          r.filter (fun b => decide (b.contentHash = ae.contentHash)) = be :: qs := by
        cases hc : r.filter (fun b => decide (b.contentHash = ae.contentHash)) with
        | nil => exact absurd hc hf
        | cons be qs => exact ⟨be, qs, rfl⟩
      rw [hq] at h
      have hfind : r.find? (fun be => decide (be.contentHash = ae.contentHash)) = some be := by
        rw [find?_eq_head_filter, hq]; rfl
      have hinv' : HashInv
          (if qs.isEmpty then eraseA m ae.contentHash else upsertA m ae.contentHash qs)
          (r.eraseP (fun be => decide (be.contentHash = ae.contentHash))) := by
        intro h'
        by_cases hh : h' = ae.contentHash
        · subst hh
          have htail : (r.eraseP (fun be => decide (be.contentHash = ae.contentHash))).filter
              (fun b => decide (b.contentHash = ae.contentHash)) = qs := by
            rw [filter_eraseP_self, hq]; rfl
          rw [htail]
          cases qs with
          | nil => simp [lookupA_eraseA]
          | cons y ys => simp [lookupA_upsertA]
        · have hfilter : (r.eraseP (fun be => decide (be.contentHash = ae.contentHash))).filter
              (fun b => decide (b.contentHash = h')) =
              r.filter (fun b => decide (b.contentHash = h')) := by
            refine filter_eraseP_disjoint ?_ r
            intro x hx
            simp only [decide_eq_true_eq] at hx
            simp [hx, hh]
          rw [hfilter]
          have hk : ¬ h' = ae.contentHash := hh
          cases hqs : qs.isEmpty with
          | true =>
            rw [if_pos rfl, lookupA_eraseA, if_neg hk]
            exact hinv h'
          | false =>
            simp only [Bool.false_eq_true, if_false]
            rw [lookupA_upsertA, if_neg (fun hcon => hk hcon.symm)]
            exact hinv h'
      simp only [phase2, h, phase2Spec, hfind, renameChangeSpec_eq]
      rw [ih _ _ hinv']

/-- Claim C2: in `matchEntities`, phase 2 indexes the unmatched before side
by contentHash into per-hash FIFO queues in before-list order, pairs each
after entity whose hash has a non-empty queue with the popped front entity
(the earliest remaining before entity with that hash), and emits `moved`
when the file paths differ, `renamed` otherwise, with `oldFilePath` set
exactly in the moved case. -/
theorem phase2_matches_spec (c a : Option String) (ua ub : List SemanticEntity) :
    phase2 c a ua (buildHashMap ub) = phase2Spec c a ua ub :=
  phase2_eq_spec_aux c a ua _ ub (buildHashMap_inv ub)

/-! ## Claim C3: phase 3 adopts the highest-scoring candidate at or above
the 0.80 threshold, ties toward the earlier before entity -/

theorem max?_cons_none {α : Type} [LinearOrder α] {l : List α} (h : l.max? = none) (a : α) :
    (a :: l).max? = some a := by
  rw [List.max?_cons, h]
  rfl

theorem max?_cons_some {α : Type} [LinearOrder α] {l : List α} {m : α}
    (h : l.max? = some m) (a : α) : (a :: l).max? = some (max a m) := by
  rw [List.max?_cons, h]
  rfl

/-- The single-pass best tracking of `bestFold` computes the earliest
candidate achieving the maximal eligible score, whenever that maximum
strictly improves on the accumulator score and clears the 0.8 threshold. -/
theorem bestFold_eq (simFn : SemanticEntity → SemanticEntity → ℚ) (ae : SemanticEntity)
    (mb : List String) :
    ∀ (l : List SemanticEntity) (best : Option SemanticEntity) (s : ℚ),
      bestFold simFn ae mb l (best, s) =
        (match ((l.filter (fun be => decide (be.id ∉ mb ∧ be.entityType = ae.entityType))).map
            (fun be => simFn be ae)).max? with
        | none => (best, s)
        | some m =>
          if s < m ∧ mkRat 4 5 ≤ m then
            (((l.filter (fun be => decide (be.id ∉ mb ∧ be.entityType = ae.entityType))).find?
                (fun be => decide (simFn be ae = m))), m)
          else (best, s)) := by
  intro l
  induction l with
  | nil => intro best s; rfl
  | cons be rest ih =>
    intro best s
    by_cases hmem : be.id ∈ mb
    · have helig : (decide (be.id ∉ mb ∧ be.entityType = ae.entityType)) = false := by
        simp [hmem]
      simp only [bestFold, if_pos hmem, List.filter_cons, helig, Bool.false_eq_true, if_false]
      exact ih best s
    · by_cases htype : be.entityType = ae.entityType
      · have helig : (decide (be.id ∉ mb ∧ be.entityType = ae.entityType)) = true := by
          simp [hmem, htype]
      -- eligible head
        have hne : ¬ (be.entityType ≠ ae.entityType) := by simpa using htype
        simp only [bestFold, if_neg hmem, if_neg hne, List.filter_cons, helig, if_true,
          List.map_cons]
        cases hM : ((rest.filter
            (fun be => decide (be.id ∉ mb ∧ be.entityType = ae.entityType))).map
            (fun be => simFn be ae)).max? with
        | none =>
          have hrest : rest.filter
              (fun be => decide (be.id ∉ mb ∧ be.entityType = ae.entityType)) = [] :=
            List.map_eq_nil_iff.mp (List.max?_eq_none_iff.mp hM)
          have h1 := max?_cons_none hM (simFn be ae)
          simp only [h1]
          by_cases hcond : s < simFn be ae ∧ mkRat 4 5 ≤ simFn be ae
          · rw [if_pos hcond, if_pos hcond, ih (some be) (simFn be ae)]
            simp only [hM, hrest, List.find?_cons, decide_eq_true_eq]
            simp
          · rw [if_neg hcond, if_neg hcond, ih best s]
            simp only [hM]
        | some mr =>
          have h1 := max?_cons_some hM (simFn be ae)
          simp only [h1]
          by_cases hcond : s < simFn be ae ∧ mkRat 4 5 ≤ simFn be ae
          · rw [if_pos hcond, ih (some be) (simFn be ae)]
            simp only [hM]
            have hRc : s < max (simFn be ae) mr ∧ mkRat 4 5 ≤ max (simFn be ae) mr :=
              ⟨lt_of_lt_of_le hcond.1 (le_max_left _ _),
               le_trans hcond.2 (le_max_left _ _)⟩
            rw [if_pos hRc]
            by_cases hscmr : simFn be ae < mr
            · have hmax : max (simFn be ae) mr = mr := max_eq_right (le_of_lt hscmr)
              have hth : mkRat 4 5 ≤ mr := le_trans hcond.2 (le_of_lt hscmr)
              rw [if_pos ⟨hscmr, hth⟩, hmax]
              have hneq : ¬ (simFn be ae = mr) := ne_of_lt hscmr
              simp [List.find?_cons, hneq]
            · have hmax : max (simFn be ae) mr = simFn be ae := max_eq_left (not_lt.mp hscmr)
              rw [if_neg (fun hc => hscmr hc.1), hmax]
              simp [List.find?_cons]
          · rw [if_neg hcond, ih best s]
            simp only [hM]
            by_cases hr : s < mr ∧ mkRat 4 5 ≤ mr
            · rw [if_pos hr]
              have hscmr : simFn be ae < mr := by
                by_contra hnot
                have hle : mr ≤ simFn be ae := not_lt.mp hnot
                exact hcond ⟨lt_of_lt_of_le hr.1 hle, le_trans hr.2 hle⟩
              have hmax : max (simFn be ae) mr = mr := max_eq_right (le_of_lt hscmr)
              have hRc : s < max (simFn be ae) mr ∧ mkRat 4 5 ≤ max (simFn be ae) mr := by
                rw [hmax]; exact hr
              rw [if_pos hRc, hmax]
              have hneq : ¬ (simFn be ae = mr) := ne_of_lt hscmr
              simp [List.find?_cons, hneq]
            · rw [if_neg hr]
              have hRc : ¬ (s < max (simFn be ae) mr ∧ mkRat 4 5 ≤ max (simFn be ae) mr) := by
                intro hc
                rcases max_choice (simFn be ae) mr with hch | hch
                · rw [hch] at hc
                  exact hcond hc
                · rw [hch] at hc
                  exact hr hc
              rw [if_neg hRc]
      · have helig : (decide (be.id ∉ mb ∧ be.entityType = ae.entityType)) = false := by
          simp [htype]
        have hne : be.entityType ≠ ae.entityType := htype
        simp only [bestFold, if_neg hmem, if_pos hne, List.filter_cons, helig,
          Bool.false_eq_true, if_false]
        exact ih best s

theorem bestFold_pick (simFn : SemanticEntity → SemanticEntity → ℚ) (ae : SemanticEntity)
    (mb : List String) (stillB : List SemanticEntity) :
    (bestFold simFn ae mb stillB (none, 0)).1 = phase3Pick simFn mb ae stillB := by
  rw [bestFold_eq]
  unfold phase3Pick
  dsimp only
  cases hM : ((stillB.filter
      (fun be => decide (be.id ∉ mb ∧ be.entityType = ae.entityType))).map
      (fun be => simFn be ae)).max? with
  | none => rfl
  | some m =>
    dsimp only
    by_cases h45 : mkRat 4 5 ≤ m
    · have h0 : (0 : ℚ) < m := lt_of_lt_of_le (by decide) h45
      rw [if_pos ⟨h0, h45⟩, if_pos h45]
    · rw [if_neg (fun hc => h45 hc.2), if_neg h45]

theorem phase3_eq_spec_aux (simFn : SemanticEntity → SemanticEntity → ℚ)
    (c a : Option String) (stillB : List SemanticEntity) :
    ∀ (la : List SemanticEntity) (mb : List String),
      phase3 simFn c a stillB la mb = phase3Spec simFn c a stillB la mb := by
  intro la
  induction la with
  | nil => intro mb; rfl
  | cons ae rest ih =>
    intro mb
    simp only [phase3, phase3Spec, bestFold_pick, renameChangeSpec_eq]
    cases phase3Pick simFn mb ae stillB with
    | some be => simp only [ih]
    | none => exact ih mb

/-- Claim C3 (amended): in `matchEntities` phase 3, matched before entities
are tracked by id — each still-unmatched after entity is paired with the
earliest before entity achieving the highest similarity score among
same-type before entities whose id is not yet matched, iff that score is at
least 0.80; the chosen entity's id is then marked matched (which also
removes any other before entity bearing the same id from consideration);
the pair is emitted as `moved` when filePaths differ and `renamed`
otherwise. -/
theorem phase3_matches_spec (simFn : SemanticEntity → SemanticEntity → ℚ)
    (c a : Option String) (stillB la : List SemanticEntity) (mb : List String) :
    phase3 simFn c a stillB la mb = phase3Spec simFn c a stillB la mb :=
  phase3_eq_spec_aux simFn c a stillB la mb

/-- Counterexample to claim C3 as stated: with two before entities sharing
an id, choosing the first for a pairing also removes the second from
consideration, so the second after entity stays unmatched (it is emitted as
`added`) although an unchosen same-type before entity scores 1 ≥ 0.80 for
it; the claim's own removal rule (`phase3Claim`) would pair them. -/
theorem phase3_claim_counterexample :
    (matchEntities [ceB1, ceB2] [ceA1, ceA2] "f.ts" (some sim1) none none).changes
        = [renameChange none none ceB1 ceA1, addedChange none none ceA2] ∧
      (phase3Claim sim1 none none [ceA1, ceA2] [ceB1, ceB2]).1
        = [renameChangeSpec none none ceB1 ceA1, renameChangeSpec none none ceB2 ceA2] ∧
      sim1 ceB2 ceA2 = 1 ∧ ceB2.entityType = ceA2.entityType ∧ ceB1 ≠ ceB2 := by
  refine ⟨?_, ?_, rfl, rfl, by decide⟩
  · decide
  · decide

/-! ## Claim C4: permutation invariance of the emitted change multiset -/

theorem mapOfList_self {α : Type} {l : List (String × α)} (h : (l.map Prod.fst).Nodup) :
    mapOfList l = l := by
  have main : ∀ (l' m : List (String × α)), ((m ++ l').map Prod.fst).Nodup →
      l'.foldl (fun m p => upsertA m p.1 p.2) m = m ++ l' := by
    intro l'
    induction l' with
    | nil => intro m _; simp
    | cons p r ih =>
      intro m hm
      have hp : lookupA m p.1 = none := by
        rw [lookupA_eq_none]
        intro hmem
        rw [List.map_append, List.nodup_append] at hm
        exact hm.2.2 hmem (by simp)
      have hup : upsertA m p.1 p.2 = m ++ [p] := by
        unfold upsertA
        rw [hp]
        rfl
      rw [List.foldl_cons, hup, ih (m ++ [p]) (by simpa using hm)]
      simp
  have h0 : (([] ++ l).map Prod.fst).Nodup := by simpa using h
  simpa [mapOfList] using main l [] h0

theorem phase1_eq (m : List (String × SemanticEntity)) (c a : Option String) :
    ∀ es : List (String × SemanticEntity),
      phase1 m c a es =
        (es.filterMap (fun p =>
           match lookupA m p.1 with
           | some be =>
             if be.contentHash ≠ p.2.contentHash then some (modifiedChange c a p.1 be p.2)
             else none
           | none => none),
         es.filterMap (fun p => if (lookupA m p.1).isSome then some p.1 else none),
         es.filterMap (fun p => if (lookupA m p.1).isSome then some p.1 else none)) := by
  intro es
  induction es with
  | nil => rfl
  | cons p r ih =>
    obtain ⟨id, ae⟩ := p
    cases hl : lookupA m id with
    | none => simp [phase1, hl, ih, List.filterMap_cons]
    | some be =>
      by_cases hh : be.contentHash ≠ ae.contentHash
      · simp [phase1, hl, ih, List.filterMap_cons, hh]
      · simp [phase1, hl, ih, List.filterMap_cons, hh]

theorem lookupA_perm {α : Type} {l l' : List (String × α)} (hnd : (l.map Prod.fst).Nodup)
    (hp : l.Perm l') (k : String) : lookupA l k = lookupA l' k := by
  have hnd' : (l'.map Prod.fst).Nodup := ((hp.map Prod.fst).nodup_iff).mp hnd
  cases h : lookupA l k with
  | some v =>
    exact (mem_lookupA hnd' (hp.mem_iff.mp (lookupA_mem h))).symm
  | none =>
    have h' : lookupA l' k = none := by
      rw [lookupA_eq_none]
      intro hmem
      exact (lookupA_eq_none.mp h) (((hp.map Prod.fst).mem_iff).mpr hmem)
    rw [h']

theorem eraseP_comm_disjoint {α : Type} {p q : α → Bool}
    (hdis : ∀ x, p x = true → q x = false) (l : List α) :
    (l.eraseP q).eraseP p = (l.eraseP p).eraseP q := by
  induction l with
  | nil => rfl
  | cons x r ih =>
    by_cases hq : q x
    · have hp : p x = false := by
        cases hpx : p x
        · rfl
        · rw [hdis x hpx] at hq; exact absurd hq (by simp)
      simp [List.eraseP_cons, hq, hp]
    · by_cases hp : p x
      · simp [List.eraseP_cons, hq, hp]
      · simp [List.eraseP_cons, hq, hp, ih]

theorem find?_eraseP_disjoint {α : Type} {p q : α → Bool}
    (hdis : ∀ x, p x = true → q x = false) (l : List α) :
    (l.eraseP q).find? p = l.find? p := by
  rw [find?_eq_head_filter, find?_eq_head_filter, filter_eraseP_disjoint hdis]

theorem phase2Spec_erase_indep (c a : Option String) :
    ∀ (ua : List SemanticEntity) (ub : List SemanticEntity) (h : String),
      (∀ ae ∈ ua, ¬ ae.contentHash = h) →
      phase2Spec c a ua (ub.eraseP (fun be => decide (be.contentHash = h)))
        = phase2Spec c a ua ub := by
  intro ua
  induction ua with
  | nil => intro ub h _; rfl
  | cons ae rest ih =>
    intro ub h hni
    have hne : ¬ ae.contentHash = h := hni ae (List.mem_cons_self _ _)
    have hdis : ∀ x : SemanticEntity,
        decide (x.contentHash = ae.contentHash) = true → decide (x.contentHash = h) = false := by
      intro x hx
      simp only [decide_eq_true_eq] at hx
      simp [hx, hne]
    have hfind : (ub.eraseP (fun be => decide (be.contentHash = h))).find?
        (fun be => decide (be.contentHash = ae.contentHash)) =
        ub.find? (fun be => decide (be.contentHash = ae.contentHash)) :=
      find?_eraseP_disjoint hdis ub
    have hrest : ∀ ae' ∈ rest, ¬ ae'.contentHash = h :=
      fun ae' hm => hni ae' (List.mem_cons_of_mem _ hm)
    cases hf : ub.find? (fun be => decide (be.contentHash = ae.contentHash)) with
    | none =>
      simp only [phase2Spec, hfind, hf]
      exact ih ub h hrest
    | some be =>
      simp only [phase2Spec, hfind, hf]
      rw [eraseP_comm_disjoint hdis, ih _ h hrest]

theorem phase2Spec_filterMap (c a : Option String) :
    ∀ (ua ub : List SemanticEntity), ((ua.map (fun e => e.contentHash)).Nodup) →
      phase2Spec c a ua ub =
        (ua.filterMap (fun ae =>
           (ub.find? (fun be => decide (be.contentHash = ae.contentHash))).map
             (fun be => renameChangeSpec c a be ae)),
         ua.filterMap (fun ae =>
           (ub.find? (fun be => decide (be.contentHash = ae.contentHash))).map
             (fun be => be.id)),
         ua.filterMap (fun ae =>
           if (ub.find? (fun be => decide (be.contentHash = ae.contentHash))).isSome
           then some ae.id else none)) := by
  intro ua
  induction ua with
  | nil => intro ub _; rfl
  | cons ae rest ih =>
    intro ub hnd
    simp only [List.map_cons, List.nodup_cons] at hnd
    cases hf : ub.find? (fun be => decide (be.contentHash = ae.contentHash)) with
    | none =>
      have hiso : (ub.find? (fun be => decide (be.contentHash = ae.contentHash))).isSome = false := by
        rw [hf]; rfl
      simp only [phase2Spec, hf, List.filterMap_cons, Option.map_none', hiso,
        Bool.false_eq_true, if_false]
      exact ih ub hnd.2
    | some be =>
      have hrest : ∀ ae' ∈ rest, ¬ ae'.contentHash = ae.contentHash := by
        intro ae' hm hcon
        exact hnd.1 (hcon ▸ List.mem_map_of_mem (fun e => e.contentHash) hm)
      have hiso : (ub.find? (fun be => decide (be.contentHash = ae.contentHash))).isSome = true := by
        rw [hf]; rfl
      simp only [phase2Spec, hf, List.filterMap_cons, Option.map_some', hiso, if_true]
      rw [phase2Spec_erase_indep c a rest ub ae.contentHash hrest, ih ub hnd.2]
      simp

theorem find?_perm_unique {α : Type} {l l' : List α} {p : α → Bool} (hperm : l.Perm l')
    (huniq : ∀ x ∈ l, ∀ y ∈ l, p x = true → p y = true → x = y) :
    l.find? p = l'.find? p := by
  cases h : l.find? p with
  | some v =>
    cases h' : l'.find? p with
    | some w =>
      have hv := List.find?_some h
      have hw := List.find?_some h'
      have hvm := List.mem_of_find?_eq_some h
      have hwm := hperm.mem_iff.mpr (List.mem_of_find?_eq_some h')
      rw [huniq v hvm w hwm hv hw]
    | none =>
      have := List.find?_eq_none.mp h' v (hperm.mem_iff.mp (List.mem_of_find?_eq_some h))
      exact absurd (List.find?_some h) this
  | none =>
    cases h' : l'.find? p with
    | some w =>
      have := List.find?_eq_none.mp h w (hperm.mem_iff.mpr (List.mem_of_find?_eq_some h'))
      exact absurd (List.find?_some h') this
    | none => rfl

theorem matchEntities_none_eq_char (before after : List SemanticEntity) (fp : String)
    (c a : Option String)
    (hbid : (before.map (fun e => e.id)).Nodup)
    (haid : (after.map (fun e => e.id)).Nodup)
    (hah : (after.map (fun e => e.contentHash)).Nodup) :
    (matchEntities before after fp none c a).changes = matchNoneChanges before after c a := by
  have hbk : ((before.map fun e => (e.id, e)).map Prod.fst).Nodup := by
    simpa [List.map_map, Function.comp] using hbid
  have hak : ((after.map fun e => (e.id, e)).map Prod.fst).Nodup := by
    simpa [List.map_map, Function.comp] using haid
  have hmB := mapOfList_self hbk
  have hmA := mapOfList_self hak
  have hua : (((after.filter (fun e =>
      decide (e.id ∉ (after.map fun e => (e.id, e)).filterMap
        (fun p => if (lookupA (before.map fun e => (e.id, e)) p.1).isSome
          then some p.1 else none)))).map (fun e => e.contentHash)).Nodup) :=
    hah.sublist ((List.filter_sublist after).map _)
  simp only [matchEntities, matchNoneChanges, mnP1, mnP2, mnDeleted, mnAdded, mnM1, mnM2a,
    mnM2b, mnUA, mnUB, mnFind, mnLook, hmB, hmA, phase1_eq]
  rw [phase2_eq_spec_aux c a _ _ _ (buildHashMap_inv _)]
  rw [phase2Spec_filterMap c a _ _ hua]
  simp only [List.filterMap_map, Function.comp_def, renameChangeSpec_eq, List.append_nil]

theorem mnLook_congr {before before' : List SemanticEntity}
    (hb : before'.Perm before) (hbid : (before.map (fun e => e.id)).Nodup) :
    mnLook before' = mnLook before := by
  funext k
  unfold mnLook
  have hbk : ((before.map fun e => (e.id, e)).map Prod.fst).Nodup := by
    simpa [List.map_map, Function.comp] using hbid
  exact (lookupA_perm hbk (hb.map _).symm k).symm

theorem mnP1_perm {before before' after after' : List SemanticEntity}
    (hb : before'.Perm before) (ha : after'.Perm after)
    (hbid : (before.map (fun e => e.id)).Nodup) (c a : Option String) :
    (mnP1 before' after' c a).Perm (mnP1 before after c a) := by
  unfold mnP1
  rw [mnLook_congr hb hbid]
  exact ha.filterMap _

theorem mnM1_perm {before before' after after' : List SemanticEntity}
    (hb : before'.Perm before) (ha : after'.Perm after)
    (hbid : (before.map (fun e => e.id)).Nodup) :
    (mnM1 before' after').Perm (mnM1 before after) := by
  unfold mnM1
  rw [mnLook_congr hb hbid]
  exact ha.filterMap _

theorem mnUB_perm {before before' after after' : List SemanticEntity}
    (hb : before'.Perm before) (ha : after'.Perm after)
    (hbid : (before.map (fun e => e.id)).Nodup) :
    (mnUB before' after').Perm (mnUB before after) := by
  unfold mnUB
  have hpred : (fun e : SemanticEntity => decide (e.id ∉ mnM1 before' after'))
      = fun e => decide (e.id ∉ mnM1 before after) := by
    funext e
    exact decide_eq_decide.mpr (not_congr (mnM1_perm hb ha hbid).mem_iff)
  rw [hpred]
  exact hb.filter _

theorem mnUA_perm {before before' after after' : List SemanticEntity}
    (hb : before'.Perm before) (ha : after'.Perm after)
    (hbid : (before.map (fun e => e.id)).Nodup) :
    (mnUA before' after').Perm (mnUA before after) := by
  unfold mnUA
  have hpred : (fun e : SemanticEntity => decide (e.id ∉ mnM1 before' after'))
      = fun e => decide (e.id ∉ mnM1 before after) := by
    funext e
    exact decide_eq_decide.mpr (not_congr (mnM1_perm hb ha hbid).mem_iff)
  rw [hpred]
  exact ha.filter _

theorem mnFind_congr {before before' after after' : List SemanticEntity}
    (hb : before'.Perm before) (ha : after'.Perm after)
    (hbid : (before.map (fun e => e.id)).Nodup)
    (hbh : (before.map (fun e => e.contentHash)).Nodup) :
    mnFind before' after' = mnFind before after := by
  funext ae
  unfold mnFind
  refine find?_perm_unique (mnUB_perm hb ha hbid) ?_
  have hsub : ((mnUB before after).map (fun e => e.contentHash)).Nodup :=
    hbh.sublist ((List.filter_sublist before).map _)
  have hnd' : ((mnUB before' after').map (fun e => e.contentHash)).Nodup :=
    (((mnUB_perm hb ha hbid).map _).nodup_iff).mpr hsub
  intro x hx y hy hpx hpy
  simp only [decide_eq_true_eq] at hpx hpy
  exact List.inj_on_of_nodup_map hnd' hx hy (by rw [hpx, hpy])

theorem mnP2_perm {before before' after after' : List SemanticEntity}
    (hb : before'.Perm before) (ha : after'.Perm after)
    (hbid : (before.map (fun e => e.id)).Nodup)
    (hbh : (before.map (fun e => e.contentHash)).Nodup) (c a : Option String) :
    (mnP2 before' after' c a).Perm (mnP2 before after c a) := by
  unfold mnP2
  rw [mnFind_congr hb ha hbid hbh]
  exact (mnUA_perm hb ha hbid).filterMap _

theorem mnM2b_perm {before before' after after' : List SemanticEntity}
    (hb : before'.Perm before) (ha : after'.Perm after)
    (hbid : (before.map (fun e => e.id)).Nodup)
    (hbh : (before.map (fun e => e.contentHash)).Nodup) :
    (mnM2b before' after').Perm (mnM2b before after) := by
  unfold mnM2b
  rw [mnFind_congr hb ha hbid hbh]
  exact (mnUA_perm hb ha hbid).filterMap _

theorem mnM2a_perm {before before' after after' : List SemanticEntity}
    (hb : before'.Perm before) (ha : after'.Perm after)
    (hbid : (before.map (fun e => e.id)).Nodup)
    (hbh : (before.map (fun e => e.contentHash)).Nodup) :
    (mnM2a before' after').Perm (mnM2a before after) := by
  unfold mnM2a
  rw [mnFind_congr hb ha hbid hbh]
  exact (mnUA_perm hb ha hbid).filterMap _

theorem mnDeleted_perm {before before' after after' : List SemanticEntity}
    (hb : before'.Perm before) (ha : after'.Perm after)
    (hbid : (before.map (fun e => e.id)).Nodup)
    (hbh : (before.map (fun e => e.contentHash)).Nodup) (c a : Option String) :
    (mnDeleted before' after' c a).Perm (mnDeleted before after c a) := by
  unfold mnDeleted
  have hpred : (fun e : SemanticEntity =>
      decide (e.id ∉ mnM1 before' after' ++ mnM2b before' after'))
      = fun e => decide (e.id ∉ mnM1 before after ++ mnM2b before after) := by
    funext e
    refine decide_eq_decide.mpr (not_congr ?_)
    rw [List.mem_append, List.mem_append]
    exact or_congr (mnM1_perm hb ha hbid).mem_iff (mnM2b_perm hb ha hbid hbh).mem_iff
  rw [hpred]
  exact (hb.filter _).map _

theorem mnAdded_perm {before before' after after' : List SemanticEntity}
    (hb : before'.Perm before) (ha : after'.Perm after)
    (hbid : (before.map (fun e => e.id)).Nodup)
    (hbh : (before.map (fun e => e.contentHash)).Nodup) (c a : Option String) :
    (mnAdded before' after' c a).Perm (mnAdded before after c a) := by
  unfold mnAdded
  have hpred : (fun e : SemanticEntity =>
      decide (e.id ∉ mnM1 before' after' ++ mnM2a before' after'))
      = fun e => decide (e.id ∉ mnM1 before after ++ mnM2a before after) := by
    funext e
    refine decide_eq_decide.mpr (not_congr ?_)
    rw [List.mem_append, List.mem_append]
    exact or_congr (mnM1_perm hb ha hbid).mem_iff (mnM2a_perm hb ha hbid hbh).mem_iff
  rw [hpred]
  exact (ha.filter _).map _

theorem matchNoneChanges_perm {before before' after after' : List SemanticEntity}
    (hb : before'.Perm before) (ha : after'.Perm after)
    (hbid : (before.map (fun e => e.id)).Nodup)
    (hbh : (before.map (fun e => e.contentHash)).Nodup) (c a : Option String) :
    (matchNoneChanges before' after' c a).Perm (matchNoneChanges before after c a) := by
  unfold matchNoneChanges
  exact (((mnP1_perm hb ha hbid c a).append (mnP2_perm hb ha hbid hbh c a)).append
    (mnDeleted_perm hb ha hbid hbh c a)).append (mnAdded_perm hb ha hbid hbh c a)

/-- Claim C4 (amended): when ids and content hashes are pairwise distinct
within the before list and within the after list and no similarity
function is supplied, permuting the entities within before or within after
changes only the order of the changes `matchEntities` emits, never which
changes are emitted — the multiset of change records (including entityId,
changeType, oldFilePath and contents) is the same. -/
theorem matchEntities_perm_invariant (before after before' after' : List SemanticEntity)
    (fp : String) (c a : Option String)
    (hb : before'.Perm before) (ha : after'.Perm after)
    (hbid : (before.map (fun e => e.id)).Nodup)
    (haid : (after.map (fun e => e.id)).Nodup)
    (hbh : (before.map (fun e => e.contentHash)).Nodup)
    (hah : (after.map (fun e => e.contentHash)).Nodup) :
    ((matchEntities before' after' fp none c a).changes : Multiset SemanticChange)
      = ((matchEntities before after fp none c a).changes : Multiset SemanticChange) := by
  have hbid' : (before'.map (fun e => e.id)).Nodup := ((hb.map _).nodup_iff).mpr hbid
  have haid' : (after'.map (fun e => e.id)).Nodup := ((ha.map _).nodup_iff).mpr haid
  have hah' : (after'.map (fun e => e.contentHash)).Nodup := ((ha.map _).nodup_iff).mpr hah
  rw [matchEntities_none_eq_char before' after' fp c a hbid' haid' hah',
    matchEntities_none_eq_char before after fp c a hbid haid hah]
  exact Multiset.coe_eq_coe.mpr (matchNoneChanges_perm hb ha hbid hbh c a)

/-- Witness for the amended C4 at concrete permuted inputs. -/
theorem matchEntities_perm_invariant_witness :
    ((matchEntities [ceA2, ceA1] [cfA1] "f.ts" none none none).changes : Multiset SemanticChange)
      = ((matchEntities [ceA1, ceA2] [cfA1] "f.ts" none none none).changes
          : Multiset SemanticChange) :=
  matchEntities_perm_invariant [ceA1, ceA2] [cfA1] [ceA2, ceA1] [cfA1] "f.ts" none none
    (by decide) (by decide) (by decide) (by decide) (by decide) (by decide)

/-- Counterexample to claim C4 as stated: permuting the after list under a
similarity function changes which after entity captures the unique fuzzy
candidate, and permuting a before list containing two entities of equal
content hash changes which of them phase 2 pairs (and which is deleted), so
the multisets of emitted changes differ. -/
theorem matchEntities_perm_counterexample :
    ([cfA2, cfA1].Perm [cfA1, cfA2] ∧
      ¬ ((matchEntities [cfB] [cfA1, cfA2] "f.ts" (some sim1) none none).changes.Perm
          (matchEntities [cfB] [cfA2, cfA1] "f.ts" (some sim1) none none).changes))
    ∧ ([cpB2, cpB1].Perm [cpB1, cpB2] ∧
      ¬ ((matchEntities [cpB1, cpB2] [cpA] "f.ts" none none none).changes.Perm
          (matchEntities [cpB2, cpB1] [cpA] "f.ts" none none none).changes)) := by
  refine ⟨⟨by decide, by decide⟩, ⟨by decide, by decide⟩⟩

/-! ## Claim C5: every parentId refers to an emitted entity by its path -/

theorem jsonWalkStep_cases (h : String → String) (st : Jval → String) (v : Jval)
    (ptr fp : String) (rec : Jval → String → List SemanticEntity) {e : SemanticEntity}
    (he : e ∈ jsonWalkStep h st v ptr fp rec) :
    e.parentId = (if ptr = "" then none else some ptr) ∨
    ∃ (child : Jval) (childPtr : String),
      e ∈ rec child childPtr ∧
      (∃ e' ∈ jsonWalkStep h st v ptr fp rec, e'.id = buildEntityId fp e'.entityType childPtr) ∧
      (∀ x ∈ rec child childPtr, x ∈ jsonWalkStep h st v ptr fp rec) := by
  cases v with
  | prim r => simp [jsonWalkStep] at he
  | arr elems =>
    simp only [jsonWalkStep] at he
    obtain ⟨q, hq, he2⟩ := List.mem_flatMap.1 he
    obtain ⟨i, el⟩ := q
    by_cases ho : el.isObjLike
    · rw [if_pos ho] at he2
      rcases List.mem_cons.1 he2 with rfl | hrec
      · left; rfl
      · right
        refine ⟨el, ptr ++ "/" ++ toString i, hrec, ?_, ?_⟩
        · exact ⟨_, List.mem_flatMap.2 ⟨(i, el), hq, by
            rw [if_pos ho]; exact List.mem_cons_self _ _⟩, rfl⟩
        · intro x hx
          refine List.mem_flatMap.2 ⟨(i, el), hq, ?_⟩
          dsimp only
          rw [if_pos ho]
          exact List.mem_cons_of_mem _ hx
    · rw [if_neg ho] at he2
      simp at he2
  | obj fields =>
    simp only [jsonWalkStep] at he
    obtain ⟨q, hq, he2⟩ := List.mem_flatMap.1 he
    obtain ⟨k, val⟩ := q
    rcases List.mem_cons.1 he2 with rfl | hrec
    · left; rfl
    · by_cases ho : val.isObjLike
      · rw [if_pos ho] at hrec
        right
        refine ⟨val, ptr ++ "/" ++ escapePointerKey k, hrec, ?_, ?_⟩
        · exact ⟨_, List.mem_flatMap.2 ⟨(k, val), hq, List.mem_cons_self _ _⟩, rfl⟩
        · intro x hx
          refine List.mem_flatMap.2 ⟨(k, val), hq, ?_⟩
          dsimp only
          exact List.mem_cons_of_mem _ (by rw [if_pos ho]; exact hx)
      · rw [if_neg ho] at hrec
        simp at hrec

theorem jsonWalk_parent (h : String → String) (st : Jval → String) :
    ∀ (f : Nat) (v : Jval) (ptr fp : String), ∀ e ∈ jsonWalk h st f v ptr fp, ∀ p : String,
      e.parentId = some p →
      (p = ptr ∧ ptr ≠ "") ∨
      ∃ e' ∈ jsonWalk h st f v ptr fp, e'.id = buildEntityId fp e'.entityType p := by
  intro f
  induction f with
  | zero =>
    intro v ptr fp e he p hp
    simp only [jsonWalk] at he
    rcases jsonWalkStep_cases h st v ptr fp _ he with hpar | ⟨child, cptr, hrec, _, _⟩
    · left
      rw [hpar] at hp
      by_cases hptr : ptr = ""
      · rw [if_pos hptr] at hp
        exact absurd hp (by simp)
      · rw [if_neg hptr] at hp
        exact ⟨(Option.some.inj hp).symm, hptr⟩
    · simp at hrec
  | succ f ih =>
    intro v ptr fp e he p hp
    simp only [jsonWalk] at he ⊢
    rcases jsonWalkStep_cases h st v ptr fp _ he with hpar | ⟨child, cptr, hrec, hpar', hsub⟩
    · left
      rw [hpar] at hp
      by_cases hptr : ptr = ""
      · rw [if_pos hptr] at hp
        exact absurd hp (by simp)
      · rw [if_neg hptr] at hp
        exact ⟨(Option.some.inj hp).symm, hptr⟩
    · rcases ih child cptr fp e hrec p hp with ⟨rfl, _⟩ | ⟨e', he', hid⟩
      · right
        exact hpar'
      · right
        exact ⟨e', hsub e' he', hid⟩

theorem yamlWalkStep_cases (h : String → String) (dump : Jval → String)
    (entries : List (String × Jval)) (path fp full : String)
    (rec : List (String × Jval) → String → List SemanticEntity) {e : SemanticEntity}
    (he : e ∈ yamlWalkStep h dump entries path fp full rec) :
    e.parentId = (if path = "" then none else some path) ∨
    ∃ (fields : List (String × Jval)) (dotPath : String),
      e ∈ rec fields dotPath ∧
      (∃ e' ∈ yamlWalkStep h dump entries path fp full rec,
        e'.id = buildEntityId fp e'.entityType dotPath) ∧
      (∀ x ∈ rec fields dotPath, x ∈ yamlWalkStep h dump entries path fp full rec) := by
  simp only [yamlWalkStep] at he
  obtain ⟨q, hq, he2⟩ := List.mem_flatMap.1 he
  obtain ⟨k, v⟩ := q
  rcases List.mem_cons.1 he2 with rfl | hrec
  · left; rfl
  · cases v with
    | prim r => simp at hrec
    | arr elems => simp at hrec
    | obj fields =>
      right
      refine ⟨fields, if path = "" then k else path ++ "." ++ k, hrec, ?_, ?_⟩
      · exact ⟨_, List.mem_flatMap.2 ⟨(k, .obj fields), hq, List.mem_cons_self _ _⟩, rfl⟩
      · intro x hx
        exact List.mem_flatMap.2 ⟨(k, .obj fields), hq, List.mem_cons_of_mem _ hx⟩

theorem yamlWalk_parent (h : String → String) (dump : Jval → String) :
    ∀ (f : Nat) (entries : List (String × Jval)) (path fp full : String),
      ∀ e ∈ yamlWalk h dump f entries path fp full, ∀ p : String,
        e.parentId = some p →
        (p = path ∧ path ≠ "") ∨
        ∃ e' ∈ yamlWalk h dump f entries path fp full,
          e'.id = buildEntityId fp e'.entityType p := by
  intro f
  induction f with
  | zero =>
    intro entries path fp full e he p hp
    simp only [yamlWalk] at he
    rcases yamlWalkStep_cases h dump entries path fp full _ he with
      hpar | ⟨fields, dotPath, hrec, _, _⟩
    · left
      rw [hpar] at hp
      by_cases hpath : path = ""
      · rw [if_pos hpath] at hp
        exact absurd hp (by simp)
      · rw [if_neg hpath] at hp
        exact ⟨(Option.some.inj hp).symm, hpath⟩
    · simp at hrec
  | succ f ih =>
    intro entries path fp full e he p hp
    simp only [yamlWalk] at he ⊢
    rcases yamlWalkStep_cases h dump entries path fp full _ he with
      hpar | ⟨fields, dotPath, hrec, hpar', hsub⟩
    · left
      rw [hpar] at hp
      by_cases hpath : path = ""
      · rw [if_pos hpath] at hp
        exact absurd hp (by simp)
      · rw [if_neg hpath] at hp
        exact ⟨(Option.some.inj hp).symm, hpath⟩
    · rcases ih fields dotPath fp full e hrec p hp with ⟨rfl, _⟩ | ⟨e', he', hid⟩
      · right
        exact hpar'
      · right
        exact ⟨e', hsub e' he', hid⟩

theorem tomlWalkStep_cases (h : String → String) (st : Jval → String)
    (entries : List (String × Jval)) (path fp full : String)
    (rec : List (String × Jval) → String → List SemanticEntity) {e : SemanticEntity}
    (he : e ∈ tomlWalkStep h st entries path fp full rec) :
    e.parentId = (if path = "" then none else some path) ∨
    ∃ (fields : List (String × Jval)) (dotPath : String),
      e ∈ rec fields dotPath ∧
      (∃ e' ∈ tomlWalkStep h st entries path fp full rec,
        e'.id = buildEntityId fp e'.entityType dotPath) ∧
      (∀ x ∈ rec fields dotPath, x ∈ tomlWalkStep h st entries path fp full rec) := by
  simp only [tomlWalkStep] at he
  obtain ⟨q, hq, he2⟩ := List.mem_flatMap.1 he
  obtain ⟨k, v⟩ := q
  rcases List.mem_cons.1 he2 with rfl | hrec
  · left; rfl
  · cases v with
    | prim r => simp at hrec
    | arr elems => simp at hrec
    | obj fields =>
      right
      refine ⟨fields, if path = "" then k else path ++ "." ++ k, hrec, ?_, ?_⟩
      · exact ⟨_, List.mem_flatMap.2 ⟨(k, .obj fields), hq, List.mem_cons_self _ _⟩, rfl⟩
      · intro x hx
        exact List.mem_flatMap.2 ⟨(k, .obj fields), hq, List.mem_cons_of_mem _ hx⟩

theorem tomlWalk_parent (h : String → String) (st : Jval → String) :
    ∀ (f : Nat) (entries : List (String × Jval)) (path fp full : String),
      ∀ e ∈ tomlWalk h st f entries path fp full, ∀ p : String,
        e.parentId = some p →
        (p = path ∧ path ≠ "") ∨
        ∃ e' ∈ tomlWalk h st f entries path fp full,
          e'.id = buildEntityId fp e'.entityType p := by
  intro f
  induction f with
  | zero =>
    intro entries path fp full e he p hp
    simp only [tomlWalk] at he
    rcases tomlWalkStep_cases h st entries path fp full _ he with
      hpar | ⟨fields, dotPath, hrec, _, _⟩
    · left
      rw [hpar] at hp
      by_cases hpath : path = ""
      · rw [if_pos hpath] at hp
        exact absurd hp (by simp)
      · rw [if_neg hpath] at hp
        exact ⟨(Option.some.inj hp).symm, hpath⟩
    · simp at hrec
  | succ f ih =>
    intro entries path fp full e he p hp
    simp only [tomlWalk] at he ⊢
    rcases tomlWalkStep_cases h st entries path fp full _ he with
      hpar | ⟨fields, dotPath, hrec, hpar', hsub⟩
    · left
      rw [hpar] at hp
      by_cases hpath : path = ""
      · rw [if_pos hpath] at hp
        exact absurd hp (by simp)
      · rw [if_neg hpath] at hp
        exact ⟨(Option.some.inj hp).symm, hpath⟩
    · rcases ih fields dotPath fp full e hrec p hp with ⟨rfl, _⟩ | ⟨e', he', hid⟩
      · right
        exact hpar'
      · right
        exact ⟨e', hsub e' he', hid⟩

/-- Claim C5 (amended): for the JSON, YAML and TOML plugins, every present
`parentId` is the path of another entity in the same returned list — some
entity has id `buildEntityId filePath its-entityType parentId`; the
parentId is a pointer or dotted path, never itself a full entity id. -/
theorem plugin_parentId_refers :
    (∀ (h : String → String) (st : Jval → String) (v : Jval) (fp : String),
      ∀ e ∈ jsonExtractEntities h st v fp, ∀ p : String, e.parentId = some p →
        ∃ e' ∈ jsonExtractEntities h st v fp, e'.id = buildEntityId fp e'.entityType p) ∧
    (∀ (h : String → String) (dump : Jval → String) (parsed : Option Jval)
        (content fp : String),
      ∀ e ∈ yamlExtractEntities h dump parsed content fp, ∀ p : String, e.parentId = some p →
        ∃ e' ∈ yamlExtractEntities h dump parsed content fp,
          e'.id = buildEntityId fp e'.entityType p) ∧
    (∀ (h : String → String) (st : Jval → String) (parsed : List (String × Jval))
        (content fp : String),
      ∀ e ∈ tomlExtractEntities h st parsed content fp, ∀ p : String, e.parentId = some p →
        ∃ e' ∈ tomlExtractEntities h st parsed content fp,
          e'.id = buildEntityId fp e'.entityType p) := by
  refine ⟨?_, ?_, ?_⟩
  · intro h st v fp e he p hp
    rcases jsonWalk_parent h st 3 v "" fp e he p hp with ⟨_, hne⟩ | hex
    · exact absurd rfl hne
    · exact hex
  · intro h dump parsed content fp e he p hp
    cases parsed with
    | none => simp [yamlExtractEntities] at he
    | some v =>
      by_cases ho : v.isObjLike
      · simp only [yamlExtractEntities, if_pos ho] at he ⊢
        rcases yamlWalk_parent h dump 4 (jsEntries v) "" fp content e he p hp with
          ⟨_, hne⟩ | hex
        · exact absurd rfl hne
        · exact hex
      · simp [yamlExtractEntities, ho] at he
  · intro h st parsed content fp e he p hp
    rcases tomlWalk_parent h st 4 parsed "" fp content e he p hp with ⟨_, hne⟩ | hex
    · exact absurd rfl hne
    · exact hex

/-- Witness for the amended C5 at the concrete nested JSON document. -/
theorem plugin_parentId_refers_witness :
    ∃ e' ∈ jsonExtractEntities hashC stC docC5 "f.json",
      e'.id = buildEntityId "f.json" e'.entityType "/a" :=
  plugin_parentId_refers.1 hashC stC docC5 "f.json" c5e (by decide) "/a" (by decide)

/-- Counterexample to claim C5 as stated: in the nested document
`docC5 = obj a (obj b 1)` the second entity's parentId is the pointer
`/a`, while no entity in the list has `/a` as its id (ids carry the
`filePath::entityType::` prefix). -/
theorem parentId_not_entity_id_counterexample :
    ((jsonExtractEntities hashC stC docC5 "f.json").map (fun e => (e.id, e.parentId)))
        = [("f.json::object::/a", none), ("f.json::property::/a/b", some "/a")] ∧
      ∀ e ∈ jsonExtractEntities hashC stC docC5 "f.json", e.id ≠ "/a" := by
  exact ⟨by decide, by decide⟩

/-! ## Claim C6: duplicate first-column values / heading texts produce
duplicate ids (the code violates the documented uniqueness) -/

/-- Claim C6: evaluating the CSV plugin on two data rows sharing the
first-column value, and the Markdown plugin on two same-level headings
sharing their text, yields lists with duplicated ids — `(filePath, id)` is
not unique within one extracted snapshot, contradicting the `Unique ID`
documentation of the entity model. -/
theorem plugin_duplicate_ids :
    ((csvExtractEntities hashC "h\na\na" "f.csv").map (fun e => e.id))
        = ["f.csv::row::row[a]", "f.csv::row::row[a]"] ∧
      ¬ ((csvExtractEntities hashC "h\na\na" "f.csv").map (fun e => e.id)).Nodup ∧
      ((markdownExtractEntities hashC "# A\nx\n# A\ny" "f.md").map (fun e => e.id))
        = ["f.md::heading::A", "f.md::heading::A"] ∧
      ¬ ((markdownExtractEntities hashC "# A\nx\n# A\ny" "f.md").map (fun e => e.id)).Nodup := by
  exact ⟨by decide, by decide, by decide, by decide⟩

/-! ## Claim C8: entity ids embed the escaped RFC-6901 pointer, names are
the bare keys -/

/-- A step of the JSON walk only emits entities whose id embeds the current
pointer extended by `/` and either the escaped key (the entity's name being
the bare key) or the array index (the entity's name being `[i]`); everything
else comes from a recursive call. -/
theorem jsonWalkStep_name_id (h : String → String) (st : Jval → String) (v : Jval)
    (ptr fp : String) (rec : Jval → String → List SemanticEntity) {e : SemanticEntity}
    (he : e ∈ jsonWalkStep h st v ptr fp rec) :
    (e.parentId = (if ptr = "" then none else some ptr) ∧
      (e.id = buildEntityId fp e.entityType (ptr ++ "/" ++ escapePointerKey e.name)
        ∨ ∃ i : Nat, e.name = "[" ++ toString i ++ "]"
            ∧ e.id = buildEntityId fp e.entityType (ptr ++ "/" ++ toString i)))
    ∨ ∃ (child : Jval) (childPtr : String), e ∈ rec child childPtr := by
  cases v with
  | prim r => simp [jsonWalkStep] at he
  | arr elems =>
    simp only [jsonWalkStep] at he
    obtain ⟨q, hq, he2⟩ := List.mem_flatMap.1 he
    obtain ⟨i, el⟩ := q
    by_cases ho : el.isObjLike
    · rw [if_pos ho] at he2
      rcases List.mem_cons.1 he2 with rfl | hrec
      · exact Or.inl ⟨rfl, Or.inr ⟨i, rfl, rfl⟩⟩
      · exact Or.inr ⟨el, ptr ++ "/" ++ toString i, hrec⟩
    · rw [if_neg ho] at he2
      simp at he2
  | obj fields =>
    simp only [jsonWalkStep] at he
    obtain ⟨q, hq, he2⟩ := List.mem_flatMap.1 he
    obtain ⟨k, val⟩ := q
    rcases List.mem_cons.1 he2 with rfl | hrec
    · exact Or.inl ⟨rfl, Or.inl rfl⟩
    · by_cases ho : val.isObjLike
      · rw [if_pos ho] at hrec
        exact Or.inr ⟨val, ptr ++ "/" ++ escapePointerKey k, hrec⟩
      · rw [if_neg ho] at hrec
        simp at hrec

/-- Claim C8 (amended): every entity the JSON plugin emits, at any depth,
has an id whose path component is its parent's pointer (the one recorded in
`parentId`, absent exactly at the root) extended by `/` and either the
entity's key with `~` escaped to `~0` and `/` to `~1` (in that order) — the
`name` field being the bare unescaped key, not the pointer — or, for array
elements, the decimal index `i`, the `name` field being `[i]`. -/
theorem json_key_pointer_escaped (h : String → String) (st : Jval → String)
    (doc : Jval) (fp : String) :
    ∀ e ∈ jsonExtractEntities h st doc fp,
      ∃ pre, e.parentId = (if pre = "" then none else some pre) ∧
        (e.id = buildEntityId fp e.entityType (pre ++ "/" ++ escapePointerKey e.name)
          ∨ ∃ i : Nat, e.name = "[" ++ toString i ++ "]"
              ∧ e.id = buildEntityId fp e.entityType (pre ++ "/" ++ toString i)) := by
  have main : ∀ (f : Nat) (v : Jval) (ptr : String), ∀ e ∈ jsonWalk h st f v ptr fp,
      ∃ pre, e.parentId = (if pre = "" then none else some pre) ∧
        (e.id = buildEntityId fp e.entityType (pre ++ "/" ++ escapePointerKey e.name)
          ∨ ∃ i : Nat, e.name = "[" ++ toString i ++ "]"
              ∧ e.id = buildEntityId fp e.entityType (pre ++ "/" ++ toString i)) := by
    intro f
    induction f with
    | zero =>
      intro v ptr e he
      simp only [jsonWalk] at he
      rcases jsonWalkStep_name_id h st v ptr fp _ he with ⟨hpar, hdis⟩ | ⟨c, cp, hmem⟩
      · exact ⟨ptr, hpar, hdis⟩
      · simp at hmem
    | succ f ih =>
      intro v ptr e he
      simp only [jsonWalk] at he
      rcases jsonWalkStep_name_id h st v ptr fp _ he with ⟨hpar, hdis⟩ | ⟨c, cp, hmem⟩
      · exact ⟨ptr, hpar, hdis⟩
      · exact ih c cp e hmem
  exact main 3 doc ""

/-- Witness for the amended C8: the array-element entity of a document whose
top key contains both `~` and `/`. -/
theorem json_key_pointer_escaped_witness :
    c8e ∈ jsonExtractEntities hashC stC docC8 "f.json" ∧
    ∃ pre, c8e.parentId = (if pre = "" then none else some pre) ∧
      (c8e.id = buildEntityId "f.json" c8e.entityType (pre ++ "/" ++ escapePointerKey c8e.name)
        ∨ ∃ i : Nat, c8e.name = "[" ++ toString i ++ "]"
            ∧ c8e.id = buildEntityId "f.json" c8e.entityType (pre ++ "/" ++ toString i)) :=
  ⟨by decide, json_key_pointer_escaped hashC stC docC8 "f.json" c8e (by decide)⟩

/-- Counterexample to claim C8 as stated: for the document with the single
key `a`, the emitted entity's `name` is the bare key `a`, not the RFC-6901
pointer `/a` (the pointer appears only inside the id). -/
theorem json_name_not_pointer_counterexample :
    ((jsonExtractEntities hashC stC (.obj [("a", .prim "1")]) "f.json").map
        (fun e => (e.name, e.id)))
      = [("a", "f.json::property::/a")] ∧ ("a" : String) ≠ "/a" := by
  exact ⟨by decide, by decide⟩

/-! ## Claim C9: behaviour of the plugins on the empty string -/

/-- Claim C9 (amended): on the empty string the CSV, Markdown, YAML and
TOML plugins return the empty entity list (the empty string yaml-loads to
`undefined` and toml-parses to the empty table; `JSON.parse ""` throws
instead of returning a list), while the fallback plugin returns exactly one
chunk entity named `lines 1-1` with empty content, not zero chunks. -/
theorem empty_input_entities (h : String → String) (dump st : Jval → String) (fp : String) :
    csvExtractEntities h "" fp = [] ∧
    markdownExtractEntities h "" fp = [] ∧
    yamlExtractEntities h dump none "" fp = [] ∧
    tomlExtractEntities h st [] "" fp = [] ∧
    fallbackExtractEntities h "" fp =
      [{ id := buildEntityId fp "chunk" "lines 1-1", filePath := fp, entityType := "chunk",
         name := "lines 1-1", content := "", contentHash := h "",
         startLine := 1, endLine := 1 }] := by
  refine ⟨rfl, rfl, rfl, rfl, ?_⟩
  show fallbackChunks h fp [""] 0 = _
  rw [fallbackChunks]
  norm_num
  rw [fallbackChunks]
  exact ⟨⟨rfl, rfl, rfl, rfl⟩, rfl⟩

/-- Counterexample to claim C9 as stated: the fallback plugin yields one
chunk entity for an empty file, not zero. -/
theorem fallback_empty_one_chunk_counterexample :
    fallbackExtractEntities hashC "" "f.txt" ≠ [] ∧
    (fallbackExtractEntities hashC "" "f.txt").map (fun e => (e.name, e.content))
      = [("lines 1-1", "")] := by
  have hev : fallbackExtractEntities hashC "" "f.txt" =
      [{ id := buildEntityId "f.txt" "chunk" "lines 1-1", filePath := "f.txt",
         entityType := "chunk", name := "lines 1-1", content := "", contentHash := hashC "",
         startLine := 1, endLine := 1 }] := by
    show fallbackChunks hashC "f.txt" [""] 0 = _
    rw [fallbackChunks]
    norm_num
    rw [fallbackChunks]
    exact ⟨⟨rfl, rfl, rfl, rfl⟩, rfl⟩
  rw [hev]
  exact ⟨by decide, by decide⟩

/-! ## Claim C7: a parse failure on one side of one file is local -/

/-- Claim C7: if a plugin's parse throws on either side (before or after)
of one file, `computeSemanticDiff` behaves exactly as if that file had no
content on that side — the throwing side contributes the empty entity
list, the other side of the same file is still parsed, every other file is
processed normally, and the exception never escapes the orchestrator. -/
theorem computeSemanticDiff_parse_error_isolated (l₁ l₂ : List FileChange) (f : FileChange)
    (reg : ParserRegistryM) (p : ParserPluginM) (c a : Option String)
    (hp : reg.getPlugin f.filePath = some p) :
    (∀ s msg, f.beforeContent = some s → s ≠ "" →
      p.extract s (f.oldFilePath.getD f.filePath) = .error msg →
      computeSemanticDiff (l₁ ++ f :: l₂) reg c a
        = computeSemanticDiff (l₁ ++ { f with beforeContent := none } :: l₂) reg c a)
    ∧ (∀ s msg, f.afterContent = some s → s ≠ "" →
      p.extract s f.filePath = .error msg →
      computeSemanticDiff (l₁ ++ f :: l₂) reg c a
        = computeSemanticDiff (l₁ ++ { f with afterContent := none } :: l₂) reg c a) := by
  have hfold : ∀ g : FileChange, (∀ acc, diffFileStep reg c a acc f = diffFileStep reg c a acc g) →
      computeSemanticDiff (l₁ ++ f :: l₂) reg c a = computeSemanticDiff (l₁ ++ g :: l₂) reg c a := by
    intro g hstep
    unfold computeSemanticDiff
    rw [List.foldl_append, List.foldl_append, List.foldl_cons, List.foldl_cons, hstep]
  constructor
  · intro s msg hb hs he
    have hside : sideEntities p f.beforeContent (f.oldFilePath.getD f.filePath) = [] := by
      rw [hb]
      simp only [sideEntities]
      rw [if_pos hs, he]
    refine hfold _ (fun acc => ?_)
    unfold diffFileStep
    dsimp only
    simp only [hp]
    rw [hside]
    rfl
  · intro s msg hb hs he
    have hside : sideEntities p f.afterContent f.filePath = [] := by
      rw [hb]
      simp only [sideEntities]
      rw [if_pos hs, he]
    refine hfold _ (fun acc => ?_)
    unfold diffFileStep
    dsimp only
    simp only [hp]
    rw [hside]
    rfl

/-- Witness for C7 with a concrete always-throwing plugin, exercising both
the before-side and the after-side halves. -/
theorem computeSemanticDiff_parse_error_isolated_witness :
    (computeSemanticDiff [f0] reg0 none none = computeSemanticDiff [f0n] reg0 none none)
    ∧ (computeSemanticDiff [f0] reg0 none none = computeSemanticDiff [f0a] reg0 none none) :=
  ⟨(computeSemanticDiff_parse_error_isolated [] [] f0 reg0 p0 none none rfl).1
      "oops" "boom" rfl (by decide) rfl,
   (computeSemanticDiff_parse_error_isolated [] [] f0 reg0 p0 none none rfl).2
      "oops" "boom" rfl (by decide) rfl⟩
